import Mathlib

/-
Shallow embedding of the content-rewriting and fetch-orchestration pipeline
of the rendering proxy (src/unnamed/part_000; src/proxyHandler.js holds the
superseded simple variant of the same handler).  Strings are modelled as
`List Char`; the JavaScript regex-replace passes are modelled as left-to-right
scanners with explicit fuel so that every definition reduces in the kernel.
-/

/-! ## Character classes -/

def dquote : Char := Char.ofNat 34

def squote : Char := Char.ofNat 39

/-- The JavaScript regex class matched by a backslash-s: ECMA-262 WhiteSpace
together with LineTerminator. -/
def isJsWs (c : Char) : Bool :=
  c == ' ' || c == '\t' || c == '\n' || c == '\r' ||
  c.toNat == 11 || c.toNat == 12 || c.toNat == 0xa0 || c.toNat == 0x1680 ||
  (decide (0x2000 ≤ c.toNat) && decide (c.toNat ≤ 0x200a)) ||
  c.toNat == 0x2028 || c.toNat == 0x2029 || c.toNat == 0x202f ||
  c.toNat == 0x205f || c.toNat == 0x3000 || c.toNat == 0xfeff

/-- The character class of a double quote, a single quote or whitespace, the
guard class of all three regexes in `rewriteUrlsInContent`. -/
def isQS (c : Char) : Bool := c == dquote || c == squote || isJsWs c

/-- Characters allowed inside a matched URL run of the first two passes. -/
def okc (c : Char) : Bool := !isQS c

/-- Stop set of the root-relative pass, which also excludes a closing angle
bracket. -/
def isStop3 (c : Char) : Bool := isQS c || c == '>'

def okc3 (c : Char) : Bool := !isStop3 c

/-! ## Generic list helpers -/

def startsWithL : List Char → List Char → Bool
  | _, [] => true
  | [], _ :: _ => false
  | c :: cs, p :: ps => c == p && startsWithL cs ps

def containsL : List Char → List Char → Bool
  | [], s => startsWithL [] s
  | c :: rest, s => startsWithL (c :: rest) s || containsL rest s

def ciEq (a b : Char) : Bool := a.toLower == b.toLower

def ciIsPre : List Char → List Char → Bool
  | [], _ => true
  | _ :: _, [] => false
  | p :: ps, c :: cs => ciEq p c && ciIsPre ps cs

def ciContains : List Char → List Char → Bool
  | [], s => ciIsPre s []
  | c :: rest, s => ciIsPre s (c :: rest) || ciContains rest s

/-- `l = p ++ t` for some `t`: `p` is a leading piece of `l`. -/
def Pre (p l : List Char) : Prop := ∃ t, l = p ++ t

/-- Replace the first occurrence of `pat` in the list, the behaviour of the
JavaScript string `replace` with a plain (dollar-free) replacement string. -/
def replaceFirst : List Char → List Char → List Char → List Char
  | [], _, _ => []
  | c :: rest, pat, rep =>
    if startsWithL (c :: rest) pat then rep ++ (c :: rest).drop pat.length
    else c :: replaceFirst rest pat rep

/-! ## encodeURIComponent -/

def hexUp (n : Nat) : Char := if n < 10 then Char.ofNat (48 + n) else Char.ofNat (55 + n)

def encByte (b : Nat) : List Char := ['%', hexUp (b / 16), hexUp (b % 16)]

def utf8Bytes (n : Nat) : List Nat :=
  if n < 0x80 then [n]
  else if n < 0x800 then [0xc0 + n / 64, 0x80 + n % 64]
  else if n < 0x10000 then [0xe0 + n / 4096, 0x80 + n / 64 % 64, 0x80 + n % 64]
  else [0xf0 + n / 262144, 0x80 + n / 4096 % 64, 0x80 + n / 64 % 64, 0x80 + n % 64]

/-- The characters ECMA-262 `encodeURIComponent` leaves unescaped. -/
def isUnreservedURI (c : Char) : Bool :=
  c.isAlpha || c.isDigit || c == '-' || c == '_' || c == '.' || c == '!' ||
  c == '~' || c == '*' || c == squote || c == '(' || c == ')'

def encChar (c : Char) : List Char :=
  if isUnreservedURI c then [c] else (utf8Bytes c.toNat).flatMap encByte

def encodeURIComponent (l : List Char) : List Char := l.flatMap encChar

/-! ## URL component extraction

Simplified WHATWG parsing, adequate for absolute http(s) URLs without
userinfo: the protocol is the lowercased text before the first colon plus the
colon, the host is what follows the double slash up to a delimiter.  Default
ports are not elided. -/

def protocolOf (u : List Char) : List Char :=
  (u.takeWhile (fun c => c != ':')).map Char.toLower ++ [':']

def hostPortOf (u : List Char) : List Char :=
  (((u.drop (protocolOf u).length).drop 2).takeWhile
    (fun c => c != '/' && c != '?' && c != '#')).map Char.toLower

def hostnameOf (u : List Char) : List Char :=
  (((u.drop (protocolOf u).length).drop 2).takeWhile
    (fun c => c != '/' && c != ':' && c != '?' && c != '#')).map Char.toLower

def originOf (u : List Char) : List Char := protocolOf u ++ ('/' :: '/' :: hostPortOf u)

/-- Models `validateUrl`: `new URL(url)` succeeds and the protocol is `http:`
or `https:`.  In the simplified parse this amounts to a case-insensitive
http(s) scheme followed by `//` and a non-empty host. -/
def validateUrl (u : List Char) : Bool :=
  (ciIsPre ("http://".data) u || ciIsPre ("https://".data) u) && !(hostnameOf u).isEmpty

/-! ## HTML rewriter: `rewriteUrlsInContent`

Three global regex-replace passes, in source order: absolute URLs, then
protocol-relative, then root-relative references, each guarded by a captured
quote-or-whitespace character.  A JavaScript global replace scans left to
right, advancing one position on failure and to the end of the match on
success, which is exactly what the fueled scanners below do. -/

/-- Length of the case-insensitive scheme prefix accepted by the first pass
(regex `https?:\/\/` under the `i` flag), when present. -/
def schemeLenCI (l : List Char) : Option Nat :=
  if ciIsPre ("https://".data) l then some 8
  else if ciIsPre ("http://".data) l then some 7 else none

/-- Attempt to match `https?:\/\/[^"'\s]+` at the head of `l`; on success
return the matched run and the remainder. -/
def tryAbs (l : List Char) : Option (List Char × List Char) :=
  match schemeLenCI l with
  | none => none
  | some k =>
    if k + 1 ≤ (l.takeWhile okc).length then some (l.takeWhile okc, l.dropWhile okc)
    else none

/-- Attempt to match `\/\/[^"'\s]+` at the head of `l`. -/
def tryPR (l : List Char) : Option (List Char × List Char) :=
  if startsWithL l ('/' :: '/' :: []) then
    if 3 ≤ (l.takeWhile okc).length then some (l.takeWhile okc, l.dropWhile okc) else none
  else none

/-- Attempt to match `\/[^"'\s>]+` at the head of `l`. -/
def tryRoot : List Char → Option (List Char × List Char)
  | [] => none
  | c :: rest =>
    if c == '/' then
      if 1 ≤ (rest.takeWhile okc3).length then
        some ('/' :: rest.takeWhile okc3, rest.dropWhile okc3)
      else none
    else none

def rwAbsF (p : List Char) : Nat → List Char → List Char
  | 0, _ => []
  | _ + 1, [] => []
  | fuel + 1, c :: rest =>
    if isQS c then
      match tryAbs rest with
      | some (v, r) => c :: (p ++ ("?url=".data ++ encodeURIComponent v)) ++ rwAbsF p fuel r
      | none => c :: rwAbsF p fuel rest
    else c :: rwAbsF p fuel rest

def rwAbs (p l : List Char) : List Char := rwAbsF p l.length l

def rwPRF (p proto : List Char) : Nat → List Char → List Char
  | 0, _ => []
  | _ + 1, [] => []
  | fuel + 1, c :: rest =>
    if isQS c then
      match tryPR rest with
      | some (v, r) =>
        c :: (p ++ ("?url=".data ++ encodeURIComponent (proto ++ v))) ++ rwPRF p proto fuel r
      | none => c :: rwPRF p proto fuel rest
    else c :: rwPRF p proto fuel rest

def rwPR (p proto l : List Char) : List Char := rwPRF p proto l.length l

def rwRootF (p origin : List Char) : Nat → List Char → List Char
  | 0, _ => []
  | _ + 1, [] => []
  | fuel + 1, c :: rest =>
    if isQS c then
      match tryRoot rest with
      | some (v, r) =>
        c :: (p ++ ("?url=".data ++ encodeURIComponent (origin ++ v))) ++ rwRootF p origin fuel r
      | none => c :: rwRootF p origin fuel rest
    else c :: rwRootF p origin fuel rest

def rwRoot (p origin l : List Char) : List Char := rwRootF p origin l.length l

/-- `rewriteUrlsInContent(content, targetUrl, proxyUrl)` of the source: the
three passes composed in order. -/
def rewriteUrlsInContent (content targetUrl proxyUrl : List Char) : List Char :=
  rwRoot proxyUrl (originOf targetUrl)
    (rwPR proxyUrl (protocolOf targetUrl) (rwAbs proxyUrl content))

/-! ## CSS rewriter: `rewriteCssUrls`

One global pass over the regex `url\(['"]?([^'")]+)['"]?\)` under the `gi`
flags; a captured argument beginning with `data:` returns the whole match
unchanged, anything else is resolved and rewritten against the asset
endpoint. -/

def isCssQuote (c : Char) : Bool := c == dquote || c == squote

def notCssStop (c : Char) : Bool := !(isCssQuote c || c == ')')

/-- The part of the CSS regex after the optional opening quote: a non-empty
capture of characters outside the stop set, an optional closing quote, and
the literal closing parenthesis.  `pre` is the already consumed opening
quote, returned as part of the consumed text. -/
def tryCssBody (pre l1 : List Char) : Option (List Char × List Char × List Char) :=
  if (l1.takeWhile notCssStop).length = 0 then none
  else
    match l1.dropWhile notCssStop with
    | [] => none
    | s0 :: rest2 =>
      if s0 = ')' then
        some (l1.takeWhile notCssStop, pre ++ l1.takeWhile notCssStop ++ [')'], rest2)
      else
        if isCssQuote s0 then
          match rest2 with
          | [] => none
          | s1 :: rest3 =>
            if s1 = ')' then
              some (l1.takeWhile notCssStop,
                pre ++ l1.takeWhile notCssStop ++ (s0 :: ')' :: []), rest3)
            else none
        else none

/-- Attempt to match `['"]?([^'")]+)['"]?\)` at the head of `l` (the part of
the CSS regex after the literal `url(`).  On success return the capture, the
consumed characters and the remainder. -/
def tryCss (l : List Char) : Option (List Char × List Char × List Char) :=
  match l with
  | [] => none
  | c :: t => if isCssQuote c then tryCssBody [c] t else tryCssBody [] (c :: t)

def cssBaseDir (u : List Char) : List Char := (u.reverse.dropWhile (fun c => c != '/')).reverse

/-- Models `new URL(url, baseDir).href` in the path-relative branch.
Simplified to plain concatenation, without dot-segment normalization or the
extra percent-encoding the URL serializer would apply. -/
def resolveRelativeHref (url base : List Char) : List Char := base ++ url

def cssResolve (url targetUrl : List Char) : List Char :=
  if startsWithL url ("http".data) then url
  else if startsWithL url ('/' :: '/' :: []) then protocolOf targetUrl ++ url
  else if startsWithL url ('/' :: []) then originOf targetUrl ++ url
  else resolveRelativeHref url (cssBaseDir targetUrl)

def rwCssF (targetUrl proxyBaseUrl : List Char) : Nat → List Char → List Char
  | 0, _ => []
  | _ + 1, [] => []
  | fuel + 1, c :: rest =>
    if ciIsPre ("url(".data) (c :: rest) then
      match tryCss ((c :: rest).drop 4) with
      | some (a, m, r) =>
        if startsWithL a ("data:".data) then
          ((c :: rest).take 4 ++ m) ++ rwCssF targetUrl proxyBaseUrl fuel r
        else
          (("url(".data ++ [dquote]) ++ proxyBaseUrl ++ ("?url=".data) ++
              encodeURIComponent (cssResolve a targetUrl) ++ (dquote :: ')' :: [])) ++
            rwCssF targetUrl proxyBaseUrl fuel r
      | none => c :: rwCssF targetUrl proxyBaseUrl fuel rest
    else c :: rwCssF targetUrl proxyBaseUrl fuel rest

def rwCss (targetUrl proxyBaseUrl l : List Char) : List Char :=
  rwCssF targetUrl proxyBaseUrl l.length l

def rewriteCssUrls (cssContent targetUrl proxyBaseUrl : List Char) : List Char :=
  rwCss targetUrl proxyBaseUrl cssContent

/-! ## JS rewriter: `rewriteJsUrls`

Two global passes (no `i` flag): quoted absolute URL literals, then quoted
protocol-relative literals; both require a closing quote, which is captured
and kept. -/

def jsSchemeLen (l : List Char) : Option Nat :=
  if startsWithL l ("https://".data) then some 8
  else if startsWithL l ("http://".data) then some 7 else none

def tryJsAbs (l : List Char) : Option (List Char × Char × List Char) :=
  match jsSchemeLen l with
  | none => none
  | some k =>
    let v := l.takeWhile (fun c => !isCssQuote c)
    match l.dropWhile (fun c => !isCssQuote c) with
    | q :: r => if k + 1 ≤ v.length then some (v, q, r) else none
    | [] => none

def tryJsPR (l : List Char) : Option (List Char × Char × List Char) :=
  if startsWithL l ('/' :: '/' :: []) then
    let v := l.takeWhile (fun c => !isCssQuote c)
    match l.dropWhile (fun c => !isCssQuote c) with
    | q :: r => if 3 ≤ v.length then some (v, q, r) else none
    | [] => none
  else none

def rwJsAbsF (p : List Char) : Nat → List Char → List Char
  | 0, _ => []
  | _ + 1, [] => []
  | fuel + 1, c :: rest =>
    if isCssQuote c then
      match tryJsAbs rest with
      | some (v, q, r) =>
        c :: (p ++ ("?url=".data ++ encodeURIComponent v)) ++ q :: rwJsAbsF p fuel r
      | none => c :: rwJsAbsF p fuel rest
    else c :: rwJsAbsF p fuel rest

def rwJsPRF (p proto : List Char) : Nat → List Char → List Char
  | 0, _ => []
  | _ + 1, [] => []
  | fuel + 1, c :: rest =>
    if isCssQuote c then
      match tryJsPR rest with
      | some (v, q, r) =>
        c :: (p ++ ("?url=".data ++ encodeURIComponent (proto ++ v))) ++ q :: rwJsPRF p proto fuel r
      | none => c :: rwJsPRF p proto fuel rest
    else c :: rwJsPRF p proto fuel rest

def rwJsAbs (p l : List Char) : List Char := rwJsAbsF p l.length l

def rwJsPR (p proto l : List Char) : List Char := rwJsPRF p proto l.length l

def rewriteJsUrls (jsContent targetUrl proxyBaseUrl : List Char) : List Char :=
  rwJsPR proxyBaseUrl (protocolOf targetUrl) (rwJsAbs proxyBaseUrl jsContent)

/-! ## Cookie jar -/

/-- `saveCookies(page, url)`: store the session cookie set under the hostname
of `url`, superseding any earlier entry (the jar is read first-match-first,
so consing is the `Map.set` overwrite). -/
def saveCookies (jar : List (List Char × List γ)) (url : List Char) (cookies : List γ) :
    List (List Char × List γ) :=
  (hostnameOf url, cookies) :: jar

def jarLookup (jar : List (List Char × List γ)) (host : List Char) : Option (List γ) :=
  (jar.find? (fun e => e.1 == host)).map (fun e => e.2)

/-- `applyCookies(page, url)`: look up the hostname, defaulting to the empty
set, and inject into the session only when non-empty.  Returns the session
cookie state together with the injected set. -/
def applyCookies (jar : List (List Char × List γ)) (session : List γ) (url : List Char) :
    List γ × List γ :=
  let cs := (jarLookup jar (hostnameOf url)).getD []
  if 0 < cs.length then (session ++ cs, cs) else (session, [])

/-! ## Asset cache and `handleAsset` -/

structure CachedAsset where
  data : List Nat
  contentType : Option (List Char)
  timestamp : Nat
deriving DecidableEq

def CACHE_TTL : Nat := 3600000

def cacheGet (cache : List (List Char × CachedAsset)) (url : List Char) : Option CachedAsset :=
  (cache.find? (fun e => e.1 == url)).map (fun e => e.2)

def cacheDelete (cache : List (List Char × CachedAsset)) (url : List Char) :
    List (List Char × CachedAsset) :=
  cache.filter (fun e => !(e.1 == url))

def cacheSet (cache : List (List Char × CachedAsset)) (url : List Char) (a : CachedAsset) :
    List (List Char × CachedAsset) :=
  (url, a) :: cacheDelete cache url

/-- The cache-consultation step of `handleAsset`: a fresh entry is a hit, a
stale entry is removed and reported as a miss. -/
def cacheLookup (cache : List (List Char × CachedAsset)) (url : List Char) (now : Nat) :
    Option (List Nat × Option (List Char)) × List (List Char × CachedAsset) :=
  match cacheGet cache url with
  | some e =>
    if now - e.timestamp < CACHE_TTL then (some (e.data, e.contentType), cache)
    else (none, cacheDelete cache url)
  | none => (none, cache)

inductive ABody
  | bytes (data : List Nat)
  | errJson (err details : List Char)
deriving DecidableEq

structure AssetResp where
  status : Nat
  ctype : Option (List Char)
  body : ABody
deriving DecidableEq

/-- JavaScript truthiness of a string header: absent and empty both count as
falsy. -/
def truthyStr : Option (List Char) → Option (List Char)
  | some c => if c.isEmpty then none else some c
  | none => none

def assetFetchPhase (cache1 : List (List Char × CachedAsset)) (url : List Char) (now : Nat)
    (fetchResult : Except (List Char) (List Nat × Option (List Char))) :
    AssetResp × List (List Char × CachedAsset) :=
  match fetchResult with
  | Except.ok (d, ct) => (⟨200, truthyStr ct, ABody.bytes d⟩, cacheSet cache1 url ⟨d, ct, now⟩)
  | Except.error msg => (⟨502, none, ABody.errJson ("Failed to fetch asset".data) msg⟩, cache1)

/-- `handleAsset(ctx)`: validate, consult the cache (with lazy eviction of a
stale entry before any refetch), refetch on a miss, serve 502 on upstream
failure.  The outbound axios call is abstracted as `fetchResult`. -/
def handleAsset (cache : List (List Char × CachedAsset)) (urlParam : Option (List Char))
    (now : Nat) (fetchResult : Except (List Char) (List Nat × Option (List Char))) :
    AssetResp × List (List Char × CachedAsset) :=
  match urlParam with
  | none => (⟨400, none, ABody.errJson ("Invalid asset URL".data) []⟩, cache)
  | some url =>
    if url.isEmpty || !validateUrl url then
      (⟨400, none, ABody.errJson ("Invalid asset URL".data) []⟩, cache)
    else
      match cacheGet cache url with
      | some e =>
        if now - e.timestamp < CACHE_TTL then (⟨200, e.contentType, ABody.bytes e.data⟩, cache)
        else assetFetchPhase (cacheDelete cache url) url now fetchResult
      | none => assetFetchPhase cache url now fetchResult

/-! ## Fetch controller: `fetchPageWithRetry` -/

def backoffDelay (attempt : Nat) : Nat := 1000 * 2 ^ (attempt - 1)

structure FetchTrace (σ : Type) where
  attemptsMade : Nat
  sleeps : List Nat
  outcome : Except (List Char) σ

/-- The bounded retry loop; `remaining` counts the loop iterations still
allowed (`maxRetries + 1 - attempt`), each attempt is delegated to the
`oracle` abstracting one whole rendering attempt (open session, headers,
cookies, navigation, challenge wait, cookie save). -/
def fetchLoop (oracle : Nat → Except (List Char) σ) (maxRetries : Nat) :
    Nat → Nat → List Nat → List Char → FetchTrace σ
  | 0, attempt, sleeps, lastErr =>
    ⟨attempt - 1, sleeps,
      Except.error (("Failed to fetch page after ".data ++ (Nat.repr maxRetries).data) ++
        (" attempts: ".data ++ lastErr))⟩
  | remaining + 1, attempt, sleeps, _lastErr =>
    match oracle attempt with
    | Except.ok s => ⟨attempt, sleeps, Except.ok s⟩
    | Except.error e =>
      if attempt < maxRetries then
        fetchLoop oracle maxRetries remaining (attempt + 1) (sleeps ++ [backoffDelay attempt]) e
      else fetchLoop oracle maxRetries remaining (attempt + 1) sleeps e

def fetchPageWithRetry (oracle : Nat → Except (List Char) σ) (maxRetries : Nat := 3) :
    FetchTrace σ :=
  fetchLoop oracle maxRetries maxRetries 1 [] []

/-! ## Page-proxy handler (complete variant, src/unnamed/part_000) -/

inductive GateResult
  | reject (status : Nat) (errStatus errMessage : List Char)
  | fetch (url : List Char)
deriving DecidableEq

/-- The validation gate at the top of `handler`: non-GET methods get 405 with
a structured JSON error, a missing, empty or invalid `url` query parameter
gets 400; only a valid URL proceeds to the fetch controller. -/
def handlerGate (method : List Char) (urlParam : Option (List Char)) : GateResult :=
  if method = "GET".data then
    match urlParam with
    | none => GateResult.reject 400 ("error".data) ("Invalid URL.".data)
    | some u =>
      if u.isEmpty || !validateUrl u then
        GateResult.reject 400 ("error".data) ("Invalid URL.".data)
      else GateResult.fetch u
  else GateResult.reject 405 ("error".data) ("Only GET requests are allowed.".data)

/-- Content-type detection of the handler: the main-frame response object is
only consulted when the main frame still sits on the requested URL; otherwise
it is `null` and the content type defaults to `text/html`.  A present but
falsy header also defaults. -/
def detectedContentType (finalUrl targetUrl : List Char) (headerCT : Option (List Char)) :
    List Char :=
  if finalUrl = targetUrl then
    match truthyStr headerCT with
    | some ct => ct
    | none => "text/html".data
  else "text/html".data

/-- The binary-content test `^image|^audio|^video|^application\/pdf` under
the `i` flag (all alternatives anchored). -/
def isBinaryCT (ct : List Char) : Bool :=
  ciIsPre ("image".data) ct || ciIsPre ("audio".data) ct || ciIsPre ("video".data) ct ||
    ciIsPre ("application/pdf".data) ct

def baseTagFor (proxyBaseUrl finalUrl : List Char) : List Char :=
  ("<base href=".data ++ [dquote]) ++ proxyBaseUrl ++ ("/?url=".data) ++
    encodeURIComponent finalUrl ++ (dquote :: '>' :: [])

/-- Base-tag injection on the rewritten HTML: skipped whenever the substring
`<base` is already present, otherwise the first `<head>` is replaced by
`<head>` followed by the tag. -/
def injectBaseTag (p proxyBaseUrl finalUrl : List Char) : List Char :=
  if containsL p ("<base".data) then p
  else replaceFirst p ("<head>".data) ("<head>".data ++ baseTagFor proxyBaseUrl finalUrl)

def scriptPartA : String :=
  "\n  <script>\n    // Intercept fetch and XMLHttpRequest to route through proxy\n    (function() \x7b\n      // Save original fetch\n      const originalFetch = window.fetch;\n      window.fetch = function(url, options) \x7b\n        try \x7b\n          const absoluteUrl = new URL(url, window.location.href).href;\n          const proxiedUrl = '"

def scriptPartB : String :=
  "/?url=' + encodeURIComponent(absoluteUrl);\n          return originalFetch(proxiedUrl, options);\n        \x7d catch (e) \x7b\n          return originalFetch(url, options);\n        \x7d\n      \x7d;\n      \n      // Save original XMLHttpRequest open\n      const originalXhrOpen = XMLHttpRequest.prototype.open;\n      XMLHttpRequest.prototype.open = function(method, url, ...rest) \x7b\n        try \x7b\n          const absoluteUrl = new URL(url, window.location.href).href;\n          const proxiedUrl = '"

def scriptPartC : String :=
  "/?url=' + encodeURIComponent(absoluteUrl);\n          return originalXhrOpen.call(this, method, proxiedUrl, ...rest);\n        \x7d catch (e) \x7b\n          return originalXhrOpen.call(this, method, url, ...rest);\n        \x7d\n      \x7d;\n      \n      console.log('Proxy script initialized');\n    \x7d)();\n  </script>\n"

/-- The client-side interception snippet, with the proxy base address
interpolated at its two call sites. -/
def proxyScriptFor (proxyBaseUrl : List Char) : List Char :=
  scriptPartA.data ++ proxyBaseUrl ++ scriptPartB.data ++ proxyBaseUrl ++ scriptPartC.data

def injectProxyScript (p proxyBaseUrl : List Char) : List Char :=
  replaceFirst p ("</head>".data) (proxyScriptFor proxyBaseUrl ++ "</head>".data)

/-- The HTML branch of the handler: URL rewrite, base-tag injection, script
injection. -/
def processHtml (content finalUrl proxyBaseUrl : List Char) : List Char :=
  injectProxyScript
    (injectBaseTag (rewriteUrlsInContent content finalUrl (proxyBaseUrl ++ ('/' :: [])))
      proxyBaseUrl finalUrl)
    proxyBaseUrl

/-- The text-content dispatch of the handler (part_000 lines 302-360). -/
def processText (content contentType finalUrl proxyBaseUrl : List Char) : List Char :=
  if ciContains contentType ("html".data) then processHtml content finalUrl proxyBaseUrl
  else if ciContains contentType ("css".data) then
    rewriteCssUrls content finalUrl (proxyBaseUrl ++ "/asset".data)
  else if ciContains contentType ("javascript".data) then
    rewriteJsUrls content finalUrl (proxyBaseUrl ++ "/asset".data)
  else content

inductive PageResponse
  | redirect (location : List Char)
  | page (contentType body : List Char)
deriving DecidableEq

/-- The response phase of the handler (complete variant): binary types are
redirected to the asset endpoint, text types are processed and returned with
`ctx.type` set to the upstream content type. -/
def handlerRespond (content contentType finalUrl proxyBaseUrl : List Char) : PageResponse :=
  if isBinaryCT contentType then
    PageResponse.redirect (proxyBaseUrl ++ "/asset?url=".data ++ encodeURIComponent finalUrl)
  else PageResponse.page contentType (processText content contentType finalUrl proxyBaseUrl)

/-- Spec-side relay of text responses, written after sections 4.2 and 4.6 of
the spec: HTML gets the URL rewrite, the base-tag injection and the
interception snippet; CSS and JS are rewritten against the asset endpoint;
any other text type is relayed unchanged; the upstream content type is
always preserved on the response. -/
def specTextRelay (content contentType finalUrl proxyBaseUrl : List Char) : PageResponse :=
  PageResponse.page contentType
    (if ciContains contentType ("html".data) then
      injectProxyScript
        (injectBaseTag (rewriteUrlsInContent content finalUrl (proxyBaseUrl ++ ('/' :: [])))
          proxyBaseUrl finalUrl)
        proxyBaseUrl
    else if ciContains contentType ("css".data) then
      rewriteCssUrls content finalUrl (proxyBaseUrl ++ "/asset".data)
    else if ciContains contentType ("javascript".data) then
      rewriteJsUrls content finalUrl (proxyBaseUrl ++ "/asset".data)
    else content)

/-- Every case-insensitive occurrence of `url(` in the list is followed by a
closing parenthesis within the list. -/
def closedOpens : List Char → Bool
  | [] => true
  | c :: r =>
    (!(ciIsPre ("url(".data) (c :: r)) || (c :: r).any (fun ch => ch == ')')) && closedOpens r

/-! ## Helper lemmas -/

theorem startsWithL_split {l pat : List Char} (h : startsWithL l pat = true) :
    ∃ b, l = pat ++ b ∧ l.drop pat.length = b := by
  induction pat generalizing l with
  | nil => exact ⟨l, rfl, rfl⟩
  | cons p ps ih =>
    cases l with
    | nil => simp [startsWithL] at h
    | cons c cs =>
      simp only [startsWithL, Bool.and_eq_true, beq_iff_eq] at h
      obtain ⟨rfl, h2⟩ := h
      obtain ⟨b, hb, hd⟩ := ih h2
      exact ⟨b, by simp [hb], by simpa using hd⟩

theorem replaceFirst_split {l pat : List Char} (rep : List Char) (hne : pat ≠ [])
    (h : containsL l pat = true) :
    ∃ a b, l = a ++ pat ++ b ∧ replaceFirst l pat rep = a ++ rep ++ b := by
  induction l with
  | nil =>
    cases pat with
    | nil => exact absurd rfl hne
    | cons p ps => simp [containsL, startsWithL] at h
  | cons c rest ih =>
    by_cases hs : startsWithL (c :: rest) pat = true
    · obtain ⟨b, hb, hd⟩ := startsWithL_split hs
      refine ⟨[], b, by simpa using hb, ?_⟩
      simp [replaceFirst, hs, hd]
    · have h' : containsL rest pat = true := by
        simp only [containsL, Bool.or_eq_true] at h
        rcases h with h | h
        · exact absurd h hs
        · exact h
      obtain ⟨a, b, hab, hr⟩ := ih h'
      refine ⟨c :: a, b, by simp [hab], ?_⟩
      simp [replaceFirst, hs, hr]

theorem cacheGet_cacheDelete (cache : List (List Char × CachedAsset)) (url : List Char) :
    cacheGet (cacheDelete cache url) url = none := by
  induction cache with
  | nil => rfl
  | cons e rest ih =>
    cases he : (e.1 == url) with
    | true => simp [cacheDelete, List.filter, he]; exact ih
    | false =>
      simp only [cacheDelete, List.filter] at ih ⊢
      simp [cacheGet, List.find?, he] at ih ⊢
      try exact ih

/-! ## C1 -/

/-- C1: for every proxied response whose content type is not a binary media
type, the handler (complete variant) returns the body produced by the
content rewriter that the spec assigns to that content type, and sets the
response content type to the upstream content type. -/
theorem c1_text_relay (content contentType finalUrl proxyBaseUrl : List Char)
    (hb : isBinaryCT contentType = false) :
    handlerRespond content contentType finalUrl proxyBaseUrl =
      specTextRelay content contentType finalUrl proxyBaseUrl := by
  simp [handlerRespond, specTextRelay, processText, processHtml, hb]

/-- Witness for C1 at a CSS response. -/
theorem c1_text_relay_w :
    handlerRespond ("url('/a.png')".data) ("text/css".data) ("http://h/s.css".data)
        ("http://p".data) =
      specTextRelay ("url('/a.png')".data) ("text/css".data) ("http://h/s.css".data)
        ("http://p".data) :=
  c1_text_relay ("url('/a.png')".data) ("text/css".data) ("http://h/s.css".data)
    ("http://p".data) (by decide)

/-! ## C3 -/

/-- C3: with the default budget of 3 attempts, a renderer that fails twice
and then succeeds yields exactly 3 attempts, sleeps of 1000 ms and 2000 ms,
and the third session; three failures yield a single error wrapping the
attempt count and the last underlying message. -/
theorem c3_fetch_retry (σ : Type) (oracle : Nat → Except (List Char) σ) :
    (∀ s e1 e2, oracle 1 = Except.error e1 → oracle 2 = Except.error e2 →
      oracle 3 = Except.ok s →
      fetchPageWithRetry oracle 3 = ⟨3, [1000, 2000], Except.ok s⟩)
    ∧ (∀ e1 e2 e3, oracle 1 = Except.error e1 → oracle 2 = Except.error e2 →
      oracle 3 = Except.error e3 →
      fetchPageWithRetry oracle 3 =
        ⟨3, [1000, 2000],
          Except.error ("Failed to fetch page after 3 attempts: ".data ++ e3)⟩) := by
  constructor
  · intro s e1 e2 h1 h2 h3
    simp [fetchPageWithRetry, fetchLoop, h1, h2, h3, backoffDelay]
  · intro e1 e2 e3 h1 h2 h3
    have hr : (Nat.repr 3).data = ['3'] := by decide
    simp [fetchPageWithRetry, fetchLoop, h1, h2, h3, backoffDelay, hr]

/-- Witness for C3: a concrete oracle failing twice then succeeding, and one
failing three times. -/
theorem c3_fetch_retry_w :
    fetchPageWithRetry (fun n => if n = 3 then Except.ok 7 else Except.error ("boom".data)) 3 =
      ⟨3, [1000, 2000], Except.ok 7⟩
    ∧ fetchPageWithRetry (σ := Nat) (fun n => Except.error ((Nat.repr n).data)) 3 =
      ⟨3, [1000, 2000],
        Except.error ("Failed to fetch page after 3 attempts: ".data ++ "3".data)⟩ :=
  ⟨(c3_fetch_retry Nat (fun n => if n = 3 then Except.ok 7 else Except.error ("boom".data))).1
      7 ("boom".data) ("boom".data) rfl rfl rfl,
    (c3_fetch_retry Nat (fun n => Except.error ((Nat.repr n).data))).2
      ("1".data) ("2".data) ("3".data) rfl rfl rfl⟩

/-! ## C4 -/

/-- C4: a put followed by a get within the 1-hour TTL returns exactly the
stored payload and content type; a get at or past the TTL is a miss, removes
the stale entry, and the entry is no longer present afterwards. -/
theorem c4_cache_roundtrip (cache : List (List Char × CachedAsset)) (url : List Char)
    (d : List Nat) (ct : Option (List Char)) (t now : Nat) :
    (now - t < CACHE_TTL →
      cacheLookup (cacheSet cache url ⟨d, ct, t⟩) url now =
        (some (d, ct), cacheSet cache url ⟨d, ct, t⟩))
    ∧ (CACHE_TTL ≤ now - t →
      (cacheLookup (cacheSet cache url ⟨d, ct, t⟩) url now).1 = none
      ∧ cacheGet (cacheLookup (cacheSet cache url ⟨d, ct, t⟩) url now).2 url = none) := by
  have hget : cacheGet (cacheSet cache url ⟨d, ct, t⟩) url = some ⟨d, ct, t⟩ := by
    simp [cacheGet, cacheSet, List.find?]
  constructor
  · intro hfresh
    simp [cacheLookup, hget, hfresh]
  · intro hstale
    have hns : ¬ now - t < CACHE_TTL := by omega
    constructor
    · simp [cacheLookup, hget, hns]
    · simp only [cacheLookup, hget, hns, if_false]
      exact cacheGet_cacheDelete _ url

/-- Witness for C4: a concrete put, one fresh get and one stale get. -/
theorem c4_cache_roundtrip_w :
    (cacheLookup (cacheSet [] ("http://h/a.png".data) ⟨[7], some ("image/png".data), 100⟩)
        ("http://h/a.png".data) 200 =
      (some ([7], some ("image/png".data)),
        cacheSet [] ("http://h/a.png".data) ⟨[7], some ("image/png".data), 100⟩))
    ∧ ((cacheLookup (cacheSet [] ("http://h/a.png".data) ⟨[7], some ("image/png".data), 100⟩)
        ("http://h/a.png".data) 3600100).1 = none
      ∧ cacheGet (cacheLookup (cacheSet [] ("http://h/a.png".data)
            ⟨[7], some ("image/png".data), 100⟩) ("http://h/a.png".data) 3600100).2
          ("http://h/a.png".data) = none) :=
  ⟨(c4_cache_roundtrip [] ("http://h/a.png".data) [7] (some ("image/png".data)) 100 200).1
      (by decide),
    (c4_cache_roundtrip [] ("http://h/a.png".data) [7] (some ("image/png".data)) 100 3600100).2
      (by decide)⟩

/-! ## C10 -/

/-- C10: on an asset request finding a stale entry, the entry is deleted
before the refetch; if the refetch fails the handler returns 502 and the
cache holds no entry for the URL, so expired data is never served. -/
theorem c10_stale_asset_502 (cache : List (List Char × CachedAsset)) (url msg : List Char)
    (e : CachedAsset) (now : Nat)
    (hok : validateUrl url = true) (hne : url.isEmpty = false)
    (he : cacheGet cache url = some e) (hstale : CACHE_TTL ≤ now - e.timestamp) :
    handleAsset cache (some url) now (Except.error msg) =
      (⟨502, none, ABody.errJson ("Failed to fetch asset".data) msg⟩, cacheDelete cache url)
    ∧ cacheGet (handleAsset cache (some url) now (Except.error msg)).2 url = none := by
  have hns : ¬ now - e.timestamp < CACHE_TTL := by omega
  have hmain : handleAsset cache (some url) now (Except.error msg) =
      (⟨502, none, ABody.errJson ("Failed to fetch asset".data) msg⟩, cacheDelete cache url) := by
    simp [handleAsset, hok, hne, he, hns, assetFetchPhase]
  refine ⟨hmain, ?_⟩
  rw [hmain]
  exact cacheGet_cacheDelete cache url

/-- Witness for C10 at a concrete stale cache entry and failing refetch. -/
theorem c10_stale_asset_502_w :
    handleAsset [(("http://h/a.png".data : List Char), ⟨[7], some ("image/png".data), 0⟩)]
        (some ("http://h/a.png".data)) 3600000 (Except.error ("timeout".data)) =
      (⟨502, none, ABody.errJson ("Failed to fetch asset".data) ("timeout".data)⟩,
        cacheDelete [(("http://h/a.png".data : List Char), ⟨[7], some ("image/png".data), 0⟩)]
          ("http://h/a.png".data))
    ∧ cacheGet (handleAsset
          [(("http://h/a.png".data : List Char), ⟨[7], some ("image/png".data), 0⟩)]
          (some ("http://h/a.png".data)) 3600000 (Except.error ("timeout".data))).2
        ("http://h/a.png".data) = none :=
  c10_stale_asset_502
    [(("http://h/a.png".data : List Char), ⟨[7], some ("image/png".data), 0⟩)]
    ("http://h/a.png".data) ("timeout".data) ⟨[7], some ("image/png".data), 0⟩ 3600000
    (by decide) (by decide) (by decide) (by decide)

/-! ## C5 -/

/-- C5: a non-GET method is rejected with 405 and a structured JSON error; a
missing or invalid url parameter is rejected with 400; in every such case
the gate never produces a fetch, so the fetch controller is not invoked. -/
theorem c5_gate (method : List Char) (urlParam : Option (List Char)) :
    (method ≠ "GET".data →
      handlerGate method urlParam =
        GateResult.reject 405 ("error".data) ("Only GET requests are allowed.".data)
      ∧ ∀ u, handlerGate method urlParam ≠ GateResult.fetch u)
    ∧ (urlParam = none →
      handlerGate ("GET".data) urlParam =
        GateResult.reject 400 ("error".data) ("Invalid URL.".data)
      ∧ ∀ u, handlerGate ("GET".data) urlParam ≠ GateResult.fetch u)
    ∧ (∀ u, urlParam = some u → validateUrl u = false →
      handlerGate ("GET".data) urlParam =
        GateResult.reject 400 ("error".data) ("Invalid URL.".data)
      ∧ ∀ w, handlerGate ("GET".data) urlParam ≠ GateResult.fetch w) := by
  refine ⟨?_, ?_, ?_⟩
  · intro hm
    have : handlerGate method urlParam =
        GateResult.reject 405 ("error".data) ("Only GET requests are allowed.".data) := by
      simp [handlerGate, hm]
    exact ⟨this, fun u h => by rw [this] at h; exact GateResult.noConfusion h⟩
  · rintro rfl
    have : handlerGate ("GET".data) none =
        GateResult.reject 400 ("error".data) ("Invalid URL.".data) := by
      simp [handlerGate]
    exact ⟨this, fun u h => by rw [this] at h; exact GateResult.noConfusion h⟩
  · rintro u rfl hv
    have : handlerGate ("GET".data) (some u) =
        GateResult.reject 400 ("error".data) ("Invalid URL.".data) := by
      simp [handlerGate, hv]
    exact ⟨this, fun w h => by rw [this] at h; exact GateResult.noConfusion h⟩

/-- Witness for C5: a POST request, a missing parameter, and the spec's
`ftp://host/x` example. -/
theorem c5_gate_w :
    (handlerGate ("POST".data) (some ("http://h/".data)) =
        GateResult.reject 405 ("error".data) ("Only GET requests are allowed.".data)
      ∧ ∀ u, handlerGate ("POST".data) (some ("http://h/".data)) ≠ GateResult.fetch u)
    ∧ (handlerGate ("GET".data) none =
        GateResult.reject 400 ("error".data) ("Invalid URL.".data)
      ∧ ∀ u, handlerGate ("GET".data) (none : Option (List Char)) ≠ GateResult.fetch u)
    ∧ (handlerGate ("GET".data) (some ("ftp://host/x".data)) =
        GateResult.reject 400 ("error".data) ("Invalid URL.".data)
      ∧ ∀ w, handlerGate ("GET".data) (some ("ftp://host/x".data)) ≠ GateResult.fetch w) :=
  ⟨(c5_gate ("POST".data) (some ("http://h/".data))).1 (by decide),
    (c5_gate ("GET".data) none).2.1 rfl,
    (c5_gate ("GET".data) (some ("ftp://host/x".data))).2.2 ("ftp://host/x".data) rfl (by decide)⟩

/-! ## C7 -/

/-- C7: after saving a session's cookies for a URL, applying on a new session
for any URL with the same hostname injects exactly the saved cookie set; an
apply for a hostname with no entry injects nothing and leaves the session
unchanged (the model is total, so no exception can be raised). -/
theorem c7_cookie_jar (γ : Type) (jar : List (List Char × List γ)) (u1 u2 url : List Char)
    (cookies session s2 : List γ) :
    (hostnameOf u1 = hostnameOf u2 →
      applyCookies (saveCookies jar u1 cookies) s2 u2 = (s2 ++ cookies, cookies))
    ∧ (jarLookup jar (hostnameOf url) = none →
      applyCookies jar session url = (session, [])) := by
  constructor
  · intro hh
    have hl : jarLookup (saveCookies jar u1 cookies) (hostnameOf u2) = some cookies := by
      simp [jarLookup, saveCookies, List.find?, hh]
    cases cookies with
    | nil => simp [applyCookies, hl]
    | cons c cs => simp [applyCookies, hl]
  · intro hm
    simp [applyCookies, hm]

/-- Witness for C7: one save and two applies on concrete URLs. -/
theorem c7_cookie_jar_w :
    applyCookies (saveCookies [] ("https://a.example/x".data) [(5 : Nat)]) []
        ("https://a.example/y".data) = ([5], [5])
    ∧ applyCookies ([] : List (List Char × List Nat)) [] ("https://b.example/z".data) =
        ([], []) :=
  ⟨(c7_cookie_jar Nat [] ("https://a.example/x".data) ("https://a.example/y".data)
      ("https://a.example/y".data) [5] [] []).1 (by decide),
    (c7_cookie_jar Nat [] ("https://a.example/x".data) ("https://a.example/y".data)
      ("https://b.example/z".data) [5] [] []).2 rfl⟩

/-! ## C9 -/

/-- C9: whenever the renderer's final URL differs from the requested URL, the
main-frame response is not consulted, the detected content type defaults to
`text/html`, and the text dispatch therefore selects the HTML rewriter
whatever the actual response header said. -/
theorem c9_redirect_defaults_html (finalUrl targetUrl content proxyBaseUrl : List Char)
    (headerCT : Option (List Char)) (hne : finalUrl ≠ targetUrl) :
    detectedContentType finalUrl targetUrl headerCT = "text/html".data
    ∧ processText content (detectedContentType finalUrl targetUrl headerCT) finalUrl
        proxyBaseUrl = processHtml content finalUrl proxyBaseUrl := by
  have h : detectedContentType finalUrl targetUrl headerCT = "text/html".data := by
    simp [detectedContentType, hne]
  have hh : ciContains ("text/html".data) ("html".data) = true := by decide
  exact ⟨h, by rw [h]; simp [processText, hh]⟩

/-- Witness for C9 at a concrete redirect with a CSS response header. -/
theorem c9_redirect_defaults_html_w :
    detectedContentType ("http://h/final".data) ("http://h/req".data)
        (some ("text/css".data)) = "text/html".data
    ∧ processText ("x".data)
        (detectedContentType ("http://h/final".data) ("http://h/req".data)
          (some ("text/css".data))) ("http://h/final".data) ("http://p".data) =
      processHtml ("x".data) ("http://h/final".data) ("http://p".data) :=
  c9_redirect_defaults_html ("http://h/final".data) ("http://h/req".data) ("x".data)
    ("http://p".data) (some ("text/css".data)) (by decide)

/-! ## C6 -/

/-- C6: on the rewritten HTML, if no `<base` substring is present and an
opening `<head>` tag exists, the handler injects a base tag whose href is the
proxied form of the final URL immediately after the first `<head>`; if a
`<base` substring is present, the content is left unchanged. -/
theorem c6_base_injection (content finalUrl proxyBaseUrl : List Char) :
    (containsL (rewriteUrlsInContent content finalUrl (proxyBaseUrl ++ ('/' :: [])))
        ("<base".data) = false →
     containsL (rewriteUrlsInContent content finalUrl (proxyBaseUrl ++ ('/' :: [])))
        ("<head>".data) = true →
      ∃ a b,
        rewriteUrlsInContent content finalUrl (proxyBaseUrl ++ ('/' :: [])) =
          a ++ "<head>".data ++ b
        ∧ injectBaseTag (rewriteUrlsInContent content finalUrl (proxyBaseUrl ++ ('/' :: [])))
            proxyBaseUrl finalUrl =
          a ++ ("<head>".data ++ baseTagFor proxyBaseUrl finalUrl) ++ b)
    ∧ (containsL (rewriteUrlsInContent content finalUrl (proxyBaseUrl ++ ('/' :: [])))
        ("<base".data) = true →
      injectBaseTag (rewriteUrlsInContent content finalUrl (proxyBaseUrl ++ ('/' :: [])))
          proxyBaseUrl finalUrl =
        rewriteUrlsInContent content finalUrl (proxyBaseUrl ++ ('/' :: []))) := by
  constructor
  · intro hnb hhd
    obtain ⟨a, b, hab, hr⟩ :=
      replaceFirst_split ("<head>".data ++ baseTagFor proxyBaseUrl finalUrl)
        (by decide) hhd
    refine ⟨a, b, hab, ?_⟩
    simp only [injectBaseTag, hnb, Bool.false_eq_true, if_false]
    exact hr
  · intro hb
    simp [injectBaseTag, hb]

/-- Witness for C6: a head-only document gets the tag, a document already
holding a base tag is untouched. -/
theorem c6_base_injection_w :
    (∃ a b,
        rewriteUrlsInContent ("<head></head>".data) ("https://e.com/".data)
            (("http://p".data) ++ ('/' :: [])) = a ++ "<head>".data ++ b
        ∧ injectBaseTag
            (rewriteUrlsInContent ("<head></head>".data) ("https://e.com/".data)
              (("http://p".data) ++ ('/' :: [])))
            ("http://p".data) ("https://e.com/".data) =
          a ++ ("<head>".data ++ baseTagFor ("http://p".data) ("https://e.com/".data)) ++ b)
    ∧ injectBaseTag
        (rewriteUrlsInContent ("<base href=x>".data) ("https://e.com/".data)
          (("http://p".data) ++ ('/' :: [])))
        ("http://p".data) ("https://e.com/".data) =
      rewriteUrlsInContent ("<base href=x>".data) ("https://e.com/".data)
        (("http://p".data) ++ ('/' :: [])) :=
  ⟨(c6_base_injection ("<head></head>".data) ("https://e.com/".data) ("http://p".data)).1
      (by decide) (by decide),
    (c6_base_injection ("<base href=x>".data) ("https://e.com/".data) ("http://p".data)).2
      (by decide)⟩

/-! ## List infrastructure for the rewriter proofs -/

theorem takeWhile_all_app (pr : Char → Bool) (s b : List Char) (hs : s.all pr = true) :
    (s ++ b).takeWhile pr = s ++ b.takeWhile pr := by
  induction s with
  | nil => simp
  | cons c s' ih =>
    simp only [List.all_cons, Bool.and_eq_true] at hs
    simp [List.takeWhile_cons, hs.1, ih hs.2]

theorem dropWhile_all_app (pr : Char → Bool) (s b : List Char) (hs : s.all pr = true) :
    (s ++ b).dropWhile pr = b.dropWhile pr := by
  induction s with
  | nil => simp
  | cons c s' ih =>
    simp only [List.all_cons, Bool.and_eq_true] at hs
    simp [List.dropWhile_cons, hs.1, ih hs.2]

theorem takeWhile_stop_app (pr : Char → Bool) (x y : List Char) (q : Char) (hq : pr q = false) :
    (x ++ q :: y).takeWhile pr = x.takeWhile pr
    ∧ (x ++ q :: y).dropWhile pr = x.dropWhile pr ++ q :: y := by
  induction x with
  | nil => simp [List.takeWhile_cons, List.dropWhile_cons, hq]
  | cons c x' ih =>
    cases hc : pr c with
    | true => simp [List.takeWhile_cons, List.dropWhile_cons, hc, ih.1, ih.2]
    | false => simp [List.takeWhile_cons, List.dropWhile_cons, hc]

theorem dropWhile_len_le (pr : Char → Bool) (l : List Char) :
    (l.dropWhile pr).length ≤ l.length := by
  induction l with
  | nil => simp
  | cons c rest ih =>
    cases hc : pr c with
    | true => simp [List.dropWhile_cons, hc]; omega
    | false => simp [List.dropWhile_cons, hc]

theorem all_takeWhile_self (pr : Char → Bool) (l : List Char) :
    (l.takeWhile pr).all pr = true := by
  induction l with
  | nil => simp
  | cons c rest ih =>
    cases hc : pr c with
    | true => simp [List.takeWhile_cons, hc, ih]
    | false => simp [List.takeWhile_cons, hc]

theorem dropWhile_suffix (pr : Char → Bool) (l : List Char) :
    ∃ w, l = w ++ l.dropWhile pr :=
  ⟨l.takeWhile pr, (List.takeWhile_append_dropWhile pr l).symm⟩

theorem pre_of_append_eq {a b c d : List Char} (h : a ++ b = c ++ d)
    (hl : c.length ≤ a.length) : Pre c a := by
  induction c generalizing a with
  | nil => exact ⟨a, rfl⟩
  | cons c0 cs ih =>
    cases a with
    | nil => simp at hl
    | cons a0 as =>
      simp only [List.cons_append, List.cons.injEq] at h
      obtain ⟨rfl, h2⟩ := h
      obtain ⟨t, ht⟩ := ih h2 (by simpa using hl)
      exact ⟨t, by simp [ht]⟩

theorem append_eq_split {A B x rest : List Char} (h : A ++ B = x ++ rest) :
    (∃ e, x = A ++ e ∧ B = e ++ rest) ∨ (∃ e, A = x ++ e ∧ e ++ B = rest) := by
  induction A generalizing x with
  | nil =>
    refine Or.inl ⟨x, rfl, ?_⟩
    simpa using h
  | cons a0 as ih =>
    cases x with
    | nil => exact Or.inr ⟨a0 :: as, rfl, by simpa using h⟩
    | cons x0 xs =>
      simp only [List.cons_append, List.cons.injEq] at h
      obtain ⟨rfl, h2⟩ := h
      rcases ih h2 with ⟨e, he1, he2⟩ | ⟨e, he1, he2⟩
      · exact Or.inl ⟨e, by simp [he1], he2⟩
      · exact Or.inr ⟨e, by simp [he1], he2⟩

theorem pre_iff_startsWith (pfx l : List Char) : Pre pfx l ↔ startsWithL l pfx = true := by
  induction pfx generalizing l with
  | nil => simp [Pre, startsWithL]
  | cons p0 ps ih =>
    cases l with
    | nil =>
      simp only [startsWithL]
      constructor
      · rintro ⟨t, ht⟩
        simp at ht
      · intro h
        simp at h
    | cons c cs =>
      simp only [startsWithL, Bool.and_eq_true, beq_iff_eq]
      constructor
      · rintro ⟨t, ht⟩
        simp only [List.cons_append, List.cons.injEq] at ht
        exact ⟨ht.1, (ih cs).mp ⟨t, ht.2⟩⟩
      · rintro ⟨rfl, h2⟩
        obtain ⟨t, ht⟩ := (ih cs).mpr h2
        exact ⟨t, by simp [ht]⟩

/-! ## encodeURIComponent lemmas -/

theorem enc_append (a b : List Char) :
    encodeURIComponent (a ++ b) = encodeURIComponent a ++ encodeURIComponent b := by
  simp [encodeURIComponent]

theorem char_toNat_lt (c : Char) : c.toNat < 0x110000 := by
  have h := c.valid
  simp only [UInt32.isValidChar, Nat.isValidChar] at h
  have : Char.toNat c = c.val.toNat := rfl
  omega

theorem utf8Bytes_lt (n : Nat) (hn : n < 0x110000) : ∀ x ∈ utf8Bytes n, x < 256 := by
  intro x hx
  unfold utf8Bytes at hx
  split at hx
  · simp at hx
    omega
  · split at hx
    · simp at hx
      rcases hx with rfl | rfl <;> omega
    · split at hx
      · simp at hx
        rcases hx with rfl | rfl | rfl <;> omega
      · simp at hx
        rcases hx with rfl | rfl | rfl | rfl <;> omega

theorem hexUp_okc (n : Nat) (h : n < 16) : okc (hexUp n) = true := by
  interval_cases n <;> decide

theorem encByte_all (b : Nat) (hb : b < 256) : (encByte b).all okc = true := by
  have h1 : okc '%' = true := by decide
  have h2 : okc (hexUp (b / 16)) = true := hexUp_okc _ (by omega)
  have h3 : okc (hexUp (b % 16)) = true := hexUp_okc _ (by omega)
  simp [encByte, h1, h2, h3]

theorem encChar_all (c : Char) (hc : okc c = true) : (encChar c).all okc = true := by
  unfold encChar
  split
  · simp [hc]
  · rw [List.all_eq_true]
    intro x hx
    rw [List.mem_flatMap] at hx
    obtain ⟨bt, hbt, hxb⟩ := hx
    have hb : bt < 256 := utf8Bytes_lt c.toNat (char_toNat_lt c) bt hbt
    have := encByte_all bt hb
    rw [List.all_eq_true] at this
    exact this x hxb

theorem enc_all_okc (l : List Char) (h : l.all okc = true) :
    (encodeURIComponent l).all okc = true := by
  rw [List.all_eq_true]
  intro x hx
  rw [encodeURIComponent, List.mem_flatMap] at hx
  obtain ⟨c, hc, hxc⟩ := hx
  rw [List.all_eq_true] at h
  have := encChar_all c (h c hc)
  rw [List.all_eq_true] at this
  exact this x hxc

/-! ## Match-attempt characterizations -/

theorem tryAbs_some {l v r : List Char} (h : tryAbs l = some (v, r)) :
    v = l.takeWhile okc ∧ r = l.dropWhile okc := by
  unfold tryAbs at h
  cases hs : schemeLenCI l with
  | none => rw [hs] at h; exact Option.noConfusion h
  | some k =>
    rw [hs] at h
    dsimp only at h
    by_cases hk : k + 1 ≤ (l.takeWhile okc).length
    · rw [if_pos hk] at h
      simp only [Option.some.injEq, Prod.mk.injEq] at h
      exact ⟨h.1.symm, h.2.symm⟩
    · rw [if_neg hk] at h
      exact Option.noConfusion h

theorem tryAbs_rest_le {l v r : List Char} (h : tryAbs l = some (v, r)) :
    r.length ≤ l.length := by
  rw [(tryAbs_some h).2]
  exact dropWhile_len_le okc l

theorem tryPR_some {l v r : List Char} (h : tryPR l = some (v, r)) :
    v = l.takeWhile okc ∧ r = l.dropWhile okc := by
  unfold tryPR at h
  by_cases hs : startsWithL l ('/' :: '/' :: []) = true
  · rw [if_pos hs] at h
    by_cases hk : 3 ≤ (l.takeWhile okc).length
    · rw [if_pos hk] at h
      simp only [Option.some.injEq, Prod.mk.injEq] at h
      exact ⟨h.1.symm, h.2.symm⟩
    · rw [if_neg hk] at h
      exact Option.noConfusion h
  · rw [if_neg (by simpa using hs)] at h
    exact Option.noConfusion h

theorem tryPR_rest_le {l v r : List Char} (h : tryPR l = some (v, r)) :
    r.length ≤ l.length := by
  rw [(tryPR_some h).2]
  exact dropWhile_len_le okc l

theorem tryRoot_some {l v r : List Char} (h : tryRoot l = some (v, r)) :
    ∃ rest, l = '/' :: rest ∧ v = '/' :: rest.takeWhile okc3 ∧ r = rest.dropWhile okc3 := by
  cases l with
  | nil => exact Option.noConfusion h
  | cons c rest =>
    simp only [tryRoot] at h
    by_cases hc : (c == '/') = true
    · rw [if_pos hc] at h
      by_cases hk : 1 ≤ (rest.takeWhile okc3).length
      · rw [if_pos hk] at h
        simp only [Option.some.injEq, Prod.mk.injEq] at h
        rw [beq_iff_eq] at hc
        exact ⟨rest, by rw [hc], h.1.symm, h.2.symm⟩
      · rw [if_neg hk] at h
        exact Option.noConfusion h
    · rw [if_neg (by simpa using hc)] at h
      exact Option.noConfusion h

theorem tryRoot_rest_le {l v r : List Char} (h : tryRoot l = some (v, r)) :
    r.length ≤ l.length := by
  obtain ⟨rest, rfl, _, hr⟩ := tryRoot_some h
  rw [hr]
  have := dropWhile_len_le okc3 rest
  simp
  omega

/-! ## Fuel congruence and unfolding equations -/

theorem rwAbsF_congr (p : List Char) (f : Nat) :
    ∀ l : List Char, l.length ≤ f → rwAbsF p f l = rwAbs p l := by
  induction f using Nat.strong_induction_on with
  | _ f IH =>
    intro l hl
    cases f with
    | zero =>
      cases l with
      | nil => rfl
      | cons c rest => simp at hl
    | succ g =>
      cases l with
      | nil => rfl
      | cons c rest =>
        have hrest : rest.length ≤ g := by simp at hl; omega
        show rwAbsF p (g + 1) (c :: rest) = rwAbsF p (rest.length + 1) (c :: rest)
        by_cases hq : isQS c
        · cases hm : tryAbs rest with
          | none =>
            simp only [rwAbsF, hq, hm, if_true]
            rw [IH g (Nat.lt_succ_self g) rest hrest]
            rfl
          | some vr =>
            obtain ⟨v, r⟩ := vr
            have hr : r.length ≤ rest.length := tryAbs_rest_le hm
            simp only [rwAbsF, hq, hm, if_true]
            rw [IH g (Nat.lt_succ_self g) r (le_trans hr hrest),
              IH rest.length (by omega) r hr]
        · simp only [rwAbsF, hq, Bool.false_eq_true, if_false]
          rw [IH g (Nat.lt_succ_self g) rest hrest]
          rfl

theorem rwAbs_cons (p : List Char) (c : Char) (rest : List Char) :
    rwAbs p (c :: rest) =
      if isQS c then
        match tryAbs rest with
        | some (v, r) => c :: (p ++ ("?url=".data ++ encodeURIComponent v)) ++ rwAbs p r
        | none => c :: rwAbs p rest
      else c :: rwAbs p rest := by
  show rwAbsF p (rest.length + 1) (c :: rest) = _
  by_cases hq : isQS c
  · cases hm : tryAbs rest with
    | none => simp only [rwAbsF, hq, hm, if_true]; rfl
    | some vr =>
      obtain ⟨v, r⟩ := vr
      simp only [rwAbsF, hq, hm, if_true]
      rw [rwAbsF_congr p rest.length r (tryAbs_rest_le hm)]
  · simp only [rwAbsF, hq, Bool.false_eq_true, if_false]
    rfl

theorem rwPRF_congr (p proto : List Char) (f : Nat) :
    ∀ l : List Char, l.length ≤ f → rwPRF p proto f l = rwPR p proto l := by
  induction f using Nat.strong_induction_on with
  | _ f IH =>
    intro l hl
    cases f with
    | zero =>
      cases l with
      | nil => rfl
      | cons c rest => simp at hl
    | succ g =>
      cases l with
      | nil => rfl
      | cons c rest =>
        have hrest : rest.length ≤ g := by simp at hl; omega
        show rwPRF p proto (g + 1) (c :: rest) = rwPRF p proto (rest.length + 1) (c :: rest)
        by_cases hq : isQS c
        · cases hm : tryPR rest with
          | none =>
            simp only [rwPRF, hq, hm, if_true]
            rw [IH g (Nat.lt_succ_self g) rest hrest]
            rfl
          | some vr =>
            obtain ⟨v, r⟩ := vr
            have hr : r.length ≤ rest.length := tryPR_rest_le hm
            simp only [rwPRF, hq, hm, if_true]
            rw [IH g (Nat.lt_succ_self g) r (le_trans hr hrest),
              IH rest.length (by omega) r hr]
        · simp only [rwPRF, hq, Bool.false_eq_true, if_false]
          rw [IH g (Nat.lt_succ_self g) rest hrest]
          rfl

theorem rwPR_cons (p proto : List Char) (c : Char) (rest : List Char) :
    rwPR p proto (c :: rest) =
      if isQS c then
        match tryPR rest with
        | some (v, r) =>
          c :: (p ++ ("?url=".data ++ encodeURIComponent (proto ++ v))) ++ rwPR p proto r
        | none => c :: rwPR p proto rest
      else c :: rwPR p proto rest := by
  show rwPRF p proto (rest.length + 1) (c :: rest) = _
  by_cases hq : isQS c
  · cases hm : tryPR rest with
    | none => simp only [rwPRF, hq, hm, if_true]; rfl
    | some vr =>
      obtain ⟨v, r⟩ := vr
      simp only [rwPRF, hq, hm, if_true]
      rw [rwPRF_congr p proto rest.length r (tryPR_rest_le hm)]
  · simp only [rwPRF, hq, Bool.false_eq_true, if_false]
    rfl

theorem rwRootF_congr (p origin : List Char) (f : Nat) :
    ∀ l : List Char, l.length ≤ f → rwRootF p origin f l = rwRoot p origin l := by
  induction f using Nat.strong_induction_on with
  | _ f IH =>
    intro l hl
    cases f with
    | zero =>
      cases l with
      | nil => rfl
      | cons c rest => simp at hl
    | succ g =>
      cases l with
      | nil => rfl
      | cons c rest =>
        have hrest : rest.length ≤ g := by simp at hl; omega
        show rwRootF p origin (g + 1) (c :: rest) = rwRootF p origin (rest.length + 1) (c :: rest)
        by_cases hq : isQS c
        · cases hm : tryRoot rest with
          | none =>
            simp only [rwRootF, hq, hm, if_true]
            rw [IH g (Nat.lt_succ_self g) rest hrest]
            rfl
          | some vr =>
            obtain ⟨v, r⟩ := vr
            have hr : r.length ≤ rest.length := tryRoot_rest_le hm
            simp only [rwRootF, hq, hm, if_true]
            rw [IH g (Nat.lt_succ_self g) r (le_trans hr hrest),
              IH rest.length (by omega) r hr]
        · simp only [rwRootF, hq, Bool.false_eq_true, if_false]
          rw [IH g (Nat.lt_succ_self g) rest hrest]
          rfl

theorem rwRoot_cons (p origin : List Char) (c : Char) (rest : List Char) :
    rwRoot p origin (c :: rest) =
      if isQS c then
        match tryRoot rest with
        | some (v, r) =>
          c :: (p ++ ("?url=".data ++ encodeURIComponent (origin ++ v))) ++ rwRoot p origin r
        | none => c :: rwRoot p origin rest
      else c :: rwRoot p origin rest := by
  show rwRootF p origin (rest.length + 1) (c :: rest) = _
  by_cases hq : isQS c
  · cases hm : tryRoot rest with
    | none => simp only [rwRootF, hq, hm, if_true]; rfl
    | some vr =>
      obtain ⟨v, r⟩ := vr
      simp only [rwRootF, hq, hm, if_true]
      rw [rwRootF_congr p origin rest.length r (tryRoot_rest_le hm)]
  · simp only [rwRootF, hq, Bool.false_eq_true, if_false]
    rfl

/-! ## Scheme facts for the absolute-URL pass -/

/-- `U` is an absolute http(s) URL in the sense matched by the first pass:
a lowercase scheme followed by at least one character. -/
def UScheme (U : List Char) : Prop :=
  ∃ s t, (s = "http://".data ∨ s = "https://".data) ∧ U = s ++ t ∧ t ≠ []

theorem ciIsPre_self_app (s w : List Char) : ciIsPre s (s ++ w) = true := by
  induction s with
  | nil => rfl
  | cons c cs ih => simp [ciIsPre, ciEq, ih]

theorem ciIsPre_https_http (w : List Char) :
    ciIsPre ("https://".data) ("http://".data ++ w) = false := by
  have h1 : ("https://".data : List Char) =
      'h' :: 't' :: 't' :: 'p' :: 's' :: ':' :: '/' :: '/' :: [] := by decide
  have h2 : ("http://".data : List Char) =
      'h' :: 't' :: 't' :: 'p' :: ':' :: '/' :: '/' :: [] := by decide
  rw [h1, h2]
  simp [ciIsPre, show ciEq 'h' 'h' = true from by decide,
    show ciEq 't' 't' = true from by decide, show ciEq 'p' 'p' = true from by decide,
    show ciEq 's' ':' = false from by decide]

theorem schemeLenCI_U {U : List Char} (hU : UScheme U) (b : List Char) :
    ∃ k, schemeLenCI (U ++ b) = some k ∧ k + 1 ≤ U.length := by
  obtain ⟨s, t, hs, rfl, ht⟩ := hU
  have htl : 1 ≤ t.length := by
    cases t with
    | nil => exact absurd rfl ht
    | cons _ _ => simp
  rcases hs with rfl | rfl
  · refine ⟨7, ?_, ?_⟩
    · unfold schemeLenCI
      rw [List.append_assoc, ciIsPre_https_http (t ++ b)]
      simp only [Bool.false_eq_true, if_false]
      rw [ciIsPre_self_app ("http://".data) (t ++ b)]
      simp
    · have : ("http://".data : List Char).length = 7 := by decide
      simp [this]
      omega
  · refine ⟨8, ?_, ?_⟩
    · unfold schemeLenCI
      rw [List.append_assoc, ciIsPre_self_app ("https://".data) (t ++ b)]
      simp
    · have : ("https://".data : List Char).length = 8 := by decide
      simp [this]
      omega

theorem tryAbs_U {U : List Char} (hU : UScheme U) (hUok : U.all okc = true) (b : List Char) :
    tryAbs (U ++ b) = some (U ++ b.takeWhile okc, b.dropWhile okc) := by
  obtain ⟨k, hk, hkl⟩ := schemeLenCI_U hU b
  unfold tryAbs
  rw [hk]
  dsimp only
  rw [takeWhile_all_app okc U b hUok, dropWhile_all_app okc U b hUok]
  have hlen : k + 1 ≤ (U ++ b.takeWhile okc).length := by
    simp [List.length_append]
    omega
  rw [if_pos hlen]

/-! ## Copy and prefix lemmas for the three passes -/

theorem rwAbs_copy (p : List Char) : ∀ s b : List Char, s.all okc = true →
    rwAbs p (s ++ b) = s ++ rwAbs p b := by
  intro s
  induction s with
  | nil => intro b _; rfl
  | cons c s' ih =>
    intro b hs
    simp only [List.all_cons, Bool.and_eq_true] at hs
    have hq : isQS c = false := by
      have := hs.1
      simp [okc] at this
      exact this
    rw [List.cons_append, rwAbs_cons, hq]
    simp only [Bool.false_eq_true, if_false]
    rw [ih b hs.2]
    rfl

theorem rwPR_copy (p proto : List Char) : ∀ s b : List Char, s.all okc = true →
    rwPR p proto (s ++ b) = s ++ rwPR p proto b := by
  intro s
  induction s with
  | nil => intro b _; rfl
  | cons c s' ih =>
    intro b hs
    simp only [List.all_cons, Bool.and_eq_true] at hs
    have hq : isQS c = false := by
      have := hs.1
      simp [okc] at this
      exact this
    rw [List.cons_append, rwPR_cons, hq]
    simp only [Bool.false_eq_true, if_false]
    rw [ih b hs.2]
    rfl

theorem rwRoot_copy (p origin : List Char) : ∀ s b : List Char, s.all okc = true →
    rwRoot p origin (s ++ b) = s ++ rwRoot p origin b := by
  intro s
  induction s with
  | nil => intro b _; rfl
  | cons c s' ih =>
    intro b hs
    simp only [List.all_cons, Bool.and_eq_true] at hs
    have hq : isQS c = false := by
      have := hs.1
      simp [okc] at this
      exact this
    rw [List.cons_append, rwRoot_cons, hq]
    simp only [Bool.false_eq_true, if_false]
    rw [ih b hs.2]
    rfl

theorem pref_rwAbs (p : List Char) : ∀ l W : List Char, W.all okc = true →
    Pre W (rwAbs p l) → Pre W l := by
  intro l
  induction l with
  | nil =>
    intro W _ hW
    obtain ⟨t, ht⟩ := hW
    have : W = [] := by
      cases W with
      | nil => rfl
      | cons w ws => simp [rwAbs, rwAbsF] at ht
    subst this
    exact ⟨[], rfl⟩
  | cons c rest ih =>
    intro W hWok hW
    cases W with
    | nil => exact ⟨c :: rest, rfl⟩
    | cons w ws =>
      simp only [List.all_cons, Bool.and_eq_true] at hWok
      rw [rwAbs_cons] at hW
      by_cases hq : isQS c
      · rw [hq] at hW
        simp only [if_true] at hW
        obtain ⟨t, ht⟩ := hW
        have hwc : w = c := by
          cases hm : tryAbs rest with
          | none => rw [hm] at ht; exact (List.cons.injEq _ _ _ _ |>.mp (by simpa using ht)).1.symm
          | some vr =>
            obtain ⟨v, r⟩ := vr
            rw [hm] at ht
            exact (List.cons.injEq _ _ _ _ |>.mp (by simpa using ht)).1.symm
        exfalso
        have : okc c = true := hwc ▸ hWok.1
        simp [okc, hq] at this
      · rw [if_neg (by simpa using hq)] at hW
        obtain ⟨t, ht⟩ := hW
        simp only [List.cons_append, List.cons.injEq] at ht
        obtain ⟨rfl, ht2⟩ := ht
        obtain ⟨t2, ht2'⟩ := ih ws hWok.2 ⟨t, ht2⟩
        exact ⟨t2, by simp [ht2']⟩

theorem pref_rwPR (p proto : List Char) : ∀ l W : List Char, W.all okc = true →
    Pre W (rwPR p proto l) → Pre W l := by
  intro l
  induction l with
  | nil =>
    intro W _ hW
    obtain ⟨t, ht⟩ := hW
    have : W = [] := by
      cases W with
      | nil => rfl
      | cons w ws => simp [rwPR, rwPRF] at ht
    subst this
    exact ⟨[], rfl⟩
  | cons c rest ih =>
    intro W hWok hW
    cases W with
    | nil => exact ⟨c :: rest, rfl⟩
    | cons w ws =>
      simp only [List.all_cons, Bool.and_eq_true] at hWok
      rw [rwPR_cons] at hW
      by_cases hq : isQS c
      · rw [hq] at hW
        simp only [if_true] at hW
        obtain ⟨t, ht⟩ := hW
        have hwc : w = c := by
          cases hm : tryPR rest with
          | none => rw [hm] at ht; exact (List.cons.injEq _ _ _ _ |>.mp (by simpa using ht)).1.symm
          | some vr =>
            obtain ⟨v, r⟩ := vr
            rw [hm] at ht
            exact (List.cons.injEq _ _ _ _ |>.mp (by simpa using ht)).1.symm
        exfalso
        have : okc c = true := hwc ▸ hWok.1
        simp [okc, hq] at this
      · rw [if_neg (by simpa using hq)] at hW
        obtain ⟨t, ht⟩ := hW
        simp only [List.cons_append, List.cons.injEq] at ht
        obtain ⟨rfl, ht2⟩ := ht
        obtain ⟨t2, ht2'⟩ := ih ws hWok.2 ⟨t, ht2⟩
        exact ⟨t2, by simp [ht2']⟩

theorem pref_rwRoot (p origin : List Char) : ∀ l W : List Char, W.all okc = true →
    Pre W (rwRoot p origin l) → Pre W l := by
  intro l
  induction l with
  | nil =>
    intro W _ hW
    obtain ⟨t, ht⟩ := hW
    have : W = [] := by
      cases W with
      | nil => rfl
      | cons w ws => simp [rwRoot, rwRootF] at ht
    subst this
    exact ⟨[], rfl⟩
  | cons c rest ih =>
    intro W hWok hW
    cases W with
    | nil => exact ⟨c :: rest, rfl⟩
    | cons w ws =>
      simp only [List.all_cons, Bool.and_eq_true] at hWok
      rw [rwRoot_cons] at hW
      by_cases hq : isQS c
      · rw [hq] at hW
        simp only [if_true] at hW
        obtain ⟨t, ht⟩ := hW
        have hwc : w = c := by
          cases hm : tryRoot rest with
          | none => rw [hm] at ht; exact (List.cons.injEq _ _ _ _ |>.mp (by simpa using ht)).1.symm
          | some vr =>
            obtain ⟨v, r⟩ := vr
            rw [hm] at ht
            exact (List.cons.injEq _ _ _ _ |>.mp (by simpa using ht)).1.symm
        exfalso
        have : okc c = true := hwc ▸ hWok.1
        simp [okc, hq] at this
      · rw [if_neg (by simpa using hq)] at hW
        obtain ⟨t, ht⟩ := hW
        simp only [List.cons_append, List.cons.injEq] at ht
        obtain ⟨rfl, ht2⟩ := ht
        obtain ⟨t2, ht2'⟩ := ih ws hWok.2 ⟨t, ht2⟩
        exact ⟨t2, by simp [ht2']⟩

/-! ## The absolute pass rewrites a guarded occurrence -/

theorem rwAbs_emit_nil (p U : List Char) (hU : UScheme U) (hUok : U.all okc = true)
    (q : Char) (y : List Char) (hq : isQS q = true) (hy : Pre U y) :
    ∃ a b, rwAbs p (q :: y) =
      a ++ (q :: (p ++ ("?url=".data ++ encodeURIComponent U))) ++ b := by
  obtain ⟨b0, rfl⟩ := hy
  rw [rwAbs_cons, hq]
  simp only [if_true]
  rw [tryAbs_U hU hUok b0]
  dsimp only
  refine ⟨[], encodeURIComponent (b0.takeWhile okc) ++ rwAbs p (b0.dropWhile okc), ?_⟩
  rw [enc_append]
  simp [List.append_assoc]

theorem rwAbs_emit (p U : List Char) (hU : UScheme U) (hUok : U.all okc = true) :
    ∀ n : Nat, ∀ x : List Char, x.length ≤ n → ∀ (q : Char) (y : List Char),
    isQS q = true → Pre U y →
    ∃ a b, rwAbs p (x ++ q :: y) =
      a ++ (q :: (p ++ ("?url=".data ++ encodeURIComponent U))) ++ b := by
  intro n
  induction n with
  | zero =>
    intro x hx q y hq hy
    have hxe : x = [] := by
      cases x with
      | nil => rfl
      | cons c x' => simp at hx
    subst hxe
    simpa using rwAbs_emit_nil p U hU hUok q y hq hy
  | succ n IH =>
    intro x hx q y hq hy
    cases x with
    | nil => simpa using rwAbs_emit_nil p U hU hUok q y hq hy
    | cons c x' =>
      have hx' : x'.length ≤ n := by simp at hx; omega
      rw [List.cons_append, rwAbs_cons]
      by_cases hqc : isQS c
      · cases hm : tryAbs (x' ++ q :: y) with
        | none =>
          rw [hqc]
          simp only [if_true, hm]
          obtain ⟨a, b, hab⟩ := IH x' hx' q y hq hy
          exact ⟨c :: a, b, by rw [hab]; simp⟩
        | some vr =>
          obtain ⟨v, r⟩ := vr
          obtain ⟨hv, hr⟩ := tryAbs_some hm
          have hqs : okc q = false := by simp [okc, hq]
          have hsplit := takeWhile_stop_app okc x' y q hqs
          rw [hsplit.1] at hv
          rw [hsplit.2] at hr
          rw [hqc]
          simp only [if_true, hm]
          have hx''l : (x'.dropWhile okc).length ≤ n :=
            le_trans (dropWhile_len_le okc x') hx'
          obtain ⟨a, b, hab⟩ := IH (x'.dropWhile okc) hx''l q y hq hy
          refine ⟨c :: (p ++ ("?url=".data ++ encodeURIComponent v)) ++ a, b, ?_⟩
          rw [hr, hab]
          simp [List.append_assoc]
      · rw [if_neg (by simpa using hqc)]
        obtain ⟨a, b, hab⟩ := IH x' hx' q y hq hy
        exact ⟨c :: a, b, by rw [hab]; simp⟩

/-! ## The later passes keep a guarded okc-run intact -/

theorem tryPR_none_head {l : List Char} {h0 : Char} {t0 : List Char}
    (hl : l = h0 :: t0) (hh : h0 ≠ '/') : tryPR l = none := by
  subst hl
  unfold tryPR
  rw [if_neg]
  simp [startsWithL, hh]

theorem tryRoot_none_head {h0 : Char} {t0 : List Char} (hh : h0 ≠ '/') :
    tryRoot (h0 :: t0) = none := by
  simp only [tryRoot]
  rw [if_neg]
  simp [hh]

theorem rwPR_preserve (p proto S : List Char) (hS : S.all okc = true)
    (hhd : ∃ h0 t0, S = h0 :: t0 ∧ h0 ≠ '/') :
    ∀ n : Nat, ∀ x : List Char, x.length ≤ n → ∀ (q : Char) (y : List Char), isQS q = true →
    ∃ a b, rwPR p proto (x ++ q :: (S ++ y)) = a ++ q :: (S ++ b) := by
  have base : ∀ (q : Char) (y : List Char), isQS q = true →
      ∃ a b, rwPR p proto (q :: (S ++ y)) = a ++ q :: (S ++ b) := by
    intro q y hq
    obtain ⟨h0, t0, hS0, hh⟩ := hhd
    subst hS0
    rw [rwPR_cons, hq]
    simp only [if_true]
    rw [tryPR_none_head (List.cons_append h0 t0 y) hh]
    dsimp only
    rw [rwPR_copy p proto (h0 :: t0) y hS]
    exact ⟨[], rwPR p proto y, by simp⟩
  intro n
  induction n with
  | zero =>
    intro x hx q y hq
    have hxe : x = [] := by
      cases x with
      | nil => rfl
      | cons c x' => simp at hx
    subst hxe
    simpa using base q y hq
  | succ n IH =>
    intro x hx q y hq
    cases x with
    | nil => simpa using base q y hq
    | cons c x' =>
      have hx' : x'.length ≤ n := by simp at hx; omega
      rw [List.cons_append, rwPR_cons]
      by_cases hqc : isQS c
      · cases hm : tryPR (x' ++ q :: (S ++ y)) with
        | none =>
          rw [hqc]
          simp only [if_true, hm]
          obtain ⟨a, b, hab⟩ := IH x' hx' q y hq
          exact ⟨c :: a, b, by rw [hab]; simp⟩
        | some vr =>
          obtain ⟨v, r⟩ := vr
          obtain ⟨hv, hr⟩ := tryPR_some hm
          have hqs : okc q = false := by simp [okc, hq]
          have hsplit := takeWhile_stop_app okc x' (S ++ y) q hqs
          rw [hsplit.1] at hv
          rw [hsplit.2] at hr
          rw [hqc]
          simp only [if_true, hm]
          have hx''l : (x'.dropWhile okc).length ≤ n :=
            le_trans (dropWhile_len_le okc x') hx'
          obtain ⟨a, b, hab⟩ := IH (x'.dropWhile okc) hx''l q y hq
          refine ⟨c :: (p ++ ("?url=".data ++ encodeURIComponent (proto ++ v))) ++ a, b, ?_⟩
          rw [hr, hab]
          simp [List.append_assoc]
      · rw [if_neg (by simpa using hqc)]
        obtain ⟨a, b, hab⟩ := IH x' hx' q y hq
        exact ⟨c :: a, b, by rw [hab]; simp⟩

theorem rwRoot_preserve (p origin S : List Char) (hS : S.all okc = true)
    (hhd : ∃ h0 t0, S = h0 :: t0 ∧ h0 ≠ '/') :
    ∀ n : Nat, ∀ x : List Char, x.length ≤ n → ∀ (q : Char) (y : List Char), isQS q = true →
    ∃ a b, rwRoot p origin (x ++ q :: (S ++ y)) = a ++ q :: (S ++ b) := by
  have base : ∀ (q : Char) (y : List Char), isQS q = true →
      ∃ a b, rwRoot p origin (q :: (S ++ y)) = a ++ q :: (S ++ b) := by
    intro q y hq
    obtain ⟨h0, t0, hS0, hh⟩ := hhd
    subst hS0
    rw [rwRoot_cons, hq]
    simp only [if_true]
    rw [show (h0 :: t0) ++ y = h0 :: (t0 ++ y) from List.cons_append h0 t0 y]
    rw [tryRoot_none_head hh]
    dsimp only
    rw [show h0 :: (t0 ++ y) = (h0 :: t0) ++ y from (List.cons_append h0 t0 y).symm]
    rw [rwRoot_copy p origin (h0 :: t0) y hS]
    exact ⟨[], rwRoot p origin y, by simp⟩
  intro n
  induction n with
  | zero =>
    intro x hx q y hq
    have hxe : x = [] := by
      cases x with
      | nil => rfl
      | cons c x' => simp at hx
    subst hxe
    simpa using base q y hq
  | succ n IH =>
    intro x hx q y hq
    cases x with
    | nil => simpa using base q y hq
    | cons c x' =>
      have hx' : x'.length ≤ n := by simp at hx; omega
      rw [List.cons_append, rwRoot_cons]
      by_cases hqc : isQS c
      · cases hm : tryRoot (x' ++ q :: (S ++ y)) with
        | none =>
          rw [hqc]
          simp only [if_true, hm]
          obtain ⟨a, b, hab⟩ := IH x' hx' q y hq
          exact ⟨c :: a, b, by rw [hab]; simp⟩
        | some vr =>
          obtain ⟨v, r⟩ := vr
          obtain ⟨rest0, hrest0, hv, hr⟩ := tryRoot_some hm
          -- the matched run lies inside x'
          have hx'ne : x' ≠ [] := by
            intro hx0
            rw [hx0] at hrest0
            simp at hrest0
            have : isQS '/' = false := by decide
            rw [← hrest0.1] at this
            rw [hq] at this
            cases this
          obtain ⟨x0, x1, rfl⟩ : ∃ x0 x1, x' = x0 :: x1 := by
            cases x' with
            | nil => exact absurd rfl hx'ne
            | cons a bb => exact ⟨a, bb, rfl⟩
          have hx0 : x0 = '/' ∧ rest0 = x1 ++ q :: (S ++ y) := by
            rw [List.cons_append] at hrest0
            injection hrest0 with h1 h2
            exact ⟨h1, h2.symm⟩
          have hqs3 : okc3 q = false := by simp [okc3, isStop3, hq]
          have hsplit := takeWhile_stop_app okc3 x1 (S ++ y) q hqs3
          rw [hx0.2, hsplit.2] at hr
          rw [hqc]
          simp only [if_true, hm]
          have hx''l : (x1.dropWhile okc3).length ≤ n := by
            have h1 := dropWhile_len_le okc3 x1
            simp at hx
            omega
          obtain ⟨a, b, hab⟩ := IH (x1.dropWhile okc3) hx''l q y hq
          refine ⟨c :: (p ++ ("?url=".data ++ encodeURIComponent (origin ++ v))) ++ a, b, ?_⟩
          rw [hr, hab]
          simp [List.append_assoc]
      · rw [if_neg (by simpa using hqc)]
        obtain ⟨a, b, hab⟩ := IH x' hx' q y hq
        exact ⟨c :: a, b, by rw [hab]; simp⟩

/-! ## No guarded occurrence of the URL survives any pass -/

/-- `U` never occurs in `out` immediately preceded by a quote or whitespace
character, that is, in a rewritable position. -/
def noQSU (U out : List Char) : Prop :=
  ∀ (x : List Char) (q : Char) (y : List Char), out = x ++ q :: (U ++ y) → isQS q = false

theorem noQSU_suffix {U w z : List Char} (h : noQSU U (w ++ z)) : noQSU U z := by
  intro x q y hx
  exact h (w ++ x) q y (by rw [hx]; simp)

theorem noQSU_cons {U z : List Char} {c : Char} (h : noQSU U (c :: z)) : noQSU U z :=
  noQSU_suffix (w := [c]) h

theorem okc_of_okc3 {c : Char} (h : okc3 c = true) : okc c = true := by
  simp only [okc3, isStop3, Bool.not_eq_true', Bool.or_eq_false_iff] at h
  simp [okc, h.1]

theorem all_okc_of_okc3 {l : List Char} (h : l.all okc3 = true) : l.all okc = true := by
  rw [List.all_eq_true] at h ⊢
  intro c hc
  exact okc_of_okc3 (h c hc)

theorem body_all_okc {p w : List Char} (hp : p.all okc = true) (hw : w.all okc = true) :
    (p ++ ("?url=".data ++ encodeURIComponent w)).all okc = true := by
  have hq : ("?url=".data : List Char).all okc = true := by decide
  rw [List.all_append, List.all_append, hp, hq, enc_all_okc w hw]
  rfl

theorem rwAbs_noQSU (p U : List Char) (hU : UScheme U) (hUok : U.all okc = true)
    (hpOk : p.all okc = true) (hnp1 : ¬ Pre U p) (hnp2 : ¬ Pre p U) :
    ∀ n : Nat, ∀ l : List Char, l.length ≤ n → noQSU U (rwAbs p l) := by
  intro n
  induction n with
  | zero =>
    intro l hl x q y hout
    have hle : l = [] := by
      cases l with
      | nil => rfl
      | cons c rest => simp at hl
    subst hle
    simp [rwAbs, rwAbsF] at hout
  | succ n IH =>
    intro l hl
    cases l with
    | nil =>
      intro x q y hout
      simp [rwAbs, rwAbsF] at hout
    | cons c rest =>
      have hrest : rest.length ≤ n := by simp at hl; omega
      intro x q y hout
      rw [rwAbs_cons] at hout
      by_cases hqc : isQS c
      · rw [hqc] at hout
        simp only [if_true] at hout
        cases hm : tryAbs rest with
        | none =>
          rw [hm] at hout
          dsimp only at hout
          cases x with
          | nil =>
            rw [List.nil_append] at hout
            injection hout with h1 h2
            exfalso
            obtain ⟨b0, rfl⟩ : Pre U rest := pref_rwAbs p rest U hUok ⟨y, h2⟩
            rw [tryAbs_U hU hUok b0] at hm
            exact Option.noConfusion hm
          | cons x0 xs =>
            rw [List.cons_append] at hout
            injection hout with h1 h2
            exact IH rest hrest xs q y h2
        | some vr =>
          obtain ⟨v, r⟩ := vr
          rw [hm] at hout
          dsimp only at hout
          obtain ⟨hv, hrr⟩ := tryAbs_some hm
          have hvok : v.all okc = true := by rw [hv]; exact all_takeWhile_self okc rest
          have hBok : (p ++ ("?url=".data ++ encodeURIComponent v)).all okc = true :=
            body_all_okc hpOk hvok
          have hrl : r.length ≤ rest.length := tryAbs_rest_le hm
          cases x with
          | nil =>
            rw [List.nil_append, List.cons_append] at hout
            injection hout with h1 h2
            exfalso
            have heq : p ++ (("?url=".data ++ encodeURIComponent v) ++ rwAbs p r) = U ++ y := by
              rw [← List.append_assoc]
              exact h2
            rcases le_or_lt U.length p.length with hle | hlt
            · exact hnp1 (pre_of_append_eq heq hle)
            · exact hnp2 (pre_of_append_eq heq.symm (le_of_lt hlt))
          | cons x0 xs =>
            rw [List.cons_append, List.cons_append] at hout
            injection hout with h1 h2
            rcases append_eq_split h2 with ⟨e, he1, he2⟩ | ⟨e, he1, he2⟩
            · exact IH r (le_trans hrl hrest) e q y he2
            · cases e with
              | nil =>
                rw [List.nil_append] at he2
                exact IH r (le_trans hrl hrest) [] q y (by rw [List.nil_append]; exact he2)
              | cons e0 es =>
                have he0 : e0 = q := by
                  rw [List.cons_append] at he2
                  injection he2 with hh1 _
                have hmem : e0 ∈ p ++ ("?url=".data ++ encodeURIComponent v) := by
                  have hin0 : e0 ∈ xs ++ e0 :: es :=
                    List.mem_append_right _ (List.mem_cons_self e0 es)
                  rw [← he1] at hin0
                  simpa using hin0
                have hokq : okc e0 = true := List.all_eq_true.mp hBok e0 hmem
                rw [he0] at hokq
                simpa [okc] using hokq
      · rw [if_neg (by simpa using hqc)] at hout
        cases x with
        | nil =>
          rw [List.nil_append] at hout
          injection hout with h1 h2
          rw [← h1]
          simpa using hqc
        | cons x0 xs =>
          rw [List.cons_append] at hout
          injection hout with h1 h2
          exact IH rest hrest xs q y h2

theorem rwPR_noQSU (p proto U : List Char) (hUok : U.all okc = true)
    (hpOk : p.all okc = true) (hnp1 : ¬ Pre U p) (hnp2 : ¬ Pre p U)
    (hprotoOk : proto.all okc = true) :
    ∀ n : Nat, ∀ l : List Char, l.length ≤ n → noQSU U l → noQSU U (rwPR p proto l) := by
  intro n
  induction n with
  | zero =>
    intro l hl hin x q y hout
    have hle : l = [] := by
      cases l with
      | nil => rfl
      | cons c rest => simp at hl
    subst hle
    simp [rwPR, rwPRF] at hout
  | succ n IH =>
    intro l hl hin
    cases l with
    | nil =>
      intro x q y hout
      simp [rwPR, rwPRF] at hout
    | cons c rest =>
      have hrest : rest.length ≤ n := by simp at hl; omega
      have hinrest : noQSU U rest := noQSU_cons hin
      intro x q y hout
      rw [rwPR_cons] at hout
      by_cases hqc : isQS c
      · rw [hqc] at hout
        simp only [if_true] at hout
        cases hm : tryPR rest with
        | none =>
          rw [hm] at hout
          dsimp only at hout
          cases x with
          | nil =>
            rw [List.nil_append] at hout
            injection hout with h1 h2
            obtain ⟨b0, rfl⟩ : Pre U rest := pref_rwPR p proto rest U hUok ⟨y, h2⟩
            have hc := hin [] c b0 (by simp)
            rw [h1] at hc
            exact hc
          | cons x0 xs =>
            rw [List.cons_append] at hout
            injection hout with h1 h2
            exact IH rest hrest hinrest xs q y h2
        | some vr =>
          obtain ⟨v, r⟩ := vr
          rw [hm] at hout
          dsimp only at hout
          obtain ⟨hv, hrr⟩ := tryPR_some hm
          have hvok : v.all okc = true := by rw [hv]; exact all_takeWhile_self okc rest
          have hBok : (p ++ ("?url=".data ++ encodeURIComponent (proto ++ v))).all okc = true :=
            body_all_okc hpOk (by simp [List.all_append, hprotoOk, hvok])
          have hrl : r.length ≤ rest.length := tryPR_rest_le hm
          have hinr : noQSU U r := by
            rw [hrr]
            obtain ⟨w, hw⟩ := dropWhile_suffix okc rest
            exact noQSU_suffix (hw ▸ hinrest)
          cases x with
          | nil =>
            rw [List.nil_append, List.cons_append] at hout
            injection hout with h1 h2
            exfalso
            have heq :
                p ++ (("?url=".data ++ encodeURIComponent (proto ++ v)) ++ rwPR p proto r) =
                  U ++ y := by
              rw [← List.append_assoc]
              exact h2
            rcases le_or_lt U.length p.length with hle | hlt
            · exact hnp1 (pre_of_append_eq heq hle)
            · exact hnp2 (pre_of_append_eq heq.symm (le_of_lt hlt))
          | cons x0 xs =>
            rw [List.cons_append, List.cons_append] at hout
            injection hout with h1 h2
            rcases append_eq_split h2 with ⟨e, he1, he2⟩ | ⟨e, he1, he2⟩
            · exact IH r (le_trans hrl hrest) hinr e q y he2
            · cases e with
              | nil =>
                rw [List.nil_append] at he2
                exact IH r (le_trans hrl hrest) hinr [] q y (by rw [List.nil_append]; exact he2)
              | cons e0 es =>
                have he0 : e0 = q := by
                  rw [List.cons_append] at he2
                  injection he2 with hh1 _
                have hmem : e0 ∈ p ++ ("?url=".data ++ encodeURIComponent (proto ++ v)) := by
                  have hin0 : e0 ∈ xs ++ e0 :: es :=
                    List.mem_append_right _ (List.mem_cons_self e0 es)
                  rw [← he1] at hin0
                  simpa using hin0
                have hokq : okc e0 = true := List.all_eq_true.mp hBok e0 hmem
                rw [he0] at hokq
                simpa [okc] using hokq
      · rw [if_neg (by simpa using hqc)] at hout
        cases x with
        | nil =>
          rw [List.nil_append] at hout
          injection hout with h1 h2
          rw [← h1]
          simpa using hqc
        | cons x0 xs =>
          rw [List.cons_append] at hout
          injection hout with h1 h2
          exact IH rest hrest hinrest xs q y h2

theorem rwRoot_noQSU (p origin U : List Char) (hUok : U.all okc = true)
    (hpOk : p.all okc = true) (hnp1 : ¬ Pre U p) (hnp2 : ¬ Pre p U)
    (horiginOk : origin.all okc = true) :
    ∀ n : Nat, ∀ l : List Char, l.length ≤ n → noQSU U l → noQSU U (rwRoot p origin l) := by
  intro n
  induction n with
  | zero =>
    intro l hl hin x q y hout
    have hle : l = [] := by
      cases l with
      | nil => rfl
      | cons c rest => simp at hl
    subst hle
    simp [rwRoot, rwRootF] at hout
  | succ n IH =>
    intro l hl hin
    cases l with
    | nil =>
      intro x q y hout
      simp [rwRoot, rwRootF] at hout
    | cons c rest =>
      have hrest : rest.length ≤ n := by simp at hl; omega
      have hinrest : noQSU U rest := noQSU_cons hin
      intro x q y hout
      rw [rwRoot_cons] at hout
      by_cases hqc : isQS c
      · rw [hqc] at hout
        simp only [if_true] at hout
        cases hm : tryRoot rest with
        | none =>
          rw [hm] at hout
          dsimp only at hout
          cases x with
          | nil =>
            rw [List.nil_append] at hout
            injection hout with h1 h2
            obtain ⟨b0, rfl⟩ : Pre U rest := pref_rwRoot p origin rest U hUok ⟨y, h2⟩
            have hc := hin [] c b0 (by simp)
            rw [h1] at hc
            exact hc
          | cons x0 xs =>
            rw [List.cons_append] at hout
            injection hout with h1 h2
            exact IH rest hrest hinrest xs q y h2
        | some vr =>
          obtain ⟨v, r⟩ := vr
          rw [hm] at hout
          dsimp only at hout
          obtain ⟨rest0, hrest0, hv, hrr⟩ := tryRoot_some hm
          have hvok : v.all okc = true := by
            rw [hv]
            have h1 : okc '/' = true := by decide
            have h2 : (rest0.takeWhile okc3).all okc = true :=
              all_okc_of_okc3 (all_takeWhile_self okc3 rest0)
            simp [h1, h2]
          have hBok : (p ++ ("?url=".data ++ encodeURIComponent (origin ++ v))).all okc = true :=
            body_all_okc hpOk (by simp [List.all_append, horiginOk, hvok])
          have hrl : r.length ≤ rest.length := tryRoot_rest_le hm
          have hinr : noQSU U r := by
            rw [hrr]
            obtain ⟨w, hw⟩ := dropWhile_suffix okc3 rest0
            have hrest' : noQSU U rest0 := by
              rw [hrest0] at hinrest
              exact noQSU_cons hinrest
            exact noQSU_suffix (hw ▸ hrest')
          cases x with
          | nil =>
            rw [List.nil_append, List.cons_append] at hout
            injection hout with h1 h2
            exfalso
            have heq :
                p ++ (("?url=".data ++ encodeURIComponent (origin ++ v)) ++ rwRoot p origin r) =
                  U ++ y := by
              rw [← List.append_assoc]
              exact h2
            rcases le_or_lt U.length p.length with hle | hlt
            · exact hnp1 (pre_of_append_eq heq hle)
            · exact hnp2 (pre_of_append_eq heq.symm (le_of_lt hlt))
          | cons x0 xs =>
            rw [List.cons_append, List.cons_append] at hout
            injection hout with h1 h2
            rcases append_eq_split h2 with ⟨e, he1, he2⟩ | ⟨e, he1, he2⟩
            · exact IH r (le_trans hrl hrest) hinr e q y he2
            · cases e with
              | nil =>
                rw [List.nil_append] at he2
                exact IH r (le_trans hrl hrest) hinr [] q y (by rw [List.nil_append]; exact he2)
              | cons e0 es =>
                have he0 : e0 = q := by
                  rw [List.cons_append] at he2
                  injection he2 with hh1 _
                have hmem : e0 ∈ p ++ ("?url=".data ++ encodeURIComponent (origin ++ v)) := by
                  have hin0 : e0 ∈ xs ++ e0 :: es :=
                    List.mem_append_right _ (List.mem_cons_self e0 es)
                  rw [← he1] at hin0
                  simpa using hin0
                have hokq : okc e0 = true := List.all_eq_true.mp hBok e0 hmem
                rw [he0] at hokq
                simpa [okc] using hokq
      · rw [if_neg (by simpa using hqc)] at hout
        cases x with
        | nil =>
          rw [List.nil_append] at hout
          injection hout with h1 h2
          rw [← h1]
          simpa using hqc
        | cons x0 xs =>
          rw [List.cons_append] at hout
          injection hout with h1 h2
          exact IH rest hrest hinrest xs q y h2

/-! ## C2 -/

/-- C2 (counterexample): a payload whose only occurrence of the absolute URL
is not preceded by a quote or whitespace character is left unrewritten, so
the output does not contain the proxied form, contrary to the claim as
stated for every payload containing the URL. -/
theorem c2_counterexample :
    containsL ("http://a.b".data) ("http://a.b".data) = true
    ∧ containsL
        (rewriteUrlsInContent ("http://a.b".data) ("http://a.b".data) ("http://p/".data))
        (("http://p/".data) ++ ("?url=".data ++ encodeURIComponent ("http://a.b".data))) =
      false := by decide

/-- C2 (amended): for every HTML payload in which the absolute URL `U`
occurs in a rewritable position, that is immediately preceded by a quote or
whitespace character, and with `U` and the proxy base not a prefix of one
another, the rewriter's output contains the quote followed by
`proxyUrl ++ "?url=" ++ encodeURIComponent U`, and no occurrence of the raw
`U` preceded by a quote or whitespace character remains anywhere in the
output. -/
theorem c2_amended (content targetUrl proxyUrl U x y : List Char) (q : Char)
    (hq : isQS q = true)
    (hsplit : content = x ++ q :: (U ++ y))
    (hU : UScheme U)
    (hUok : U.all okc = true)
    (hpOk : proxyUrl.all okc = true)
    (hph : startsWithL proxyUrl ("http".data) = true)
    (hnp1 : startsWithL proxyUrl U = false)
    (hnp2 : startsWithL U proxyUrl = false)
    (hprotoOk : (protocolOf targetUrl).all okc = true)
    (horiginOk : (originOf targetUrl).all okc = true) :
    (∃ a b, rewriteUrlsInContent content targetUrl proxyUrl =
        a ++ q :: ((proxyUrl ++ ("?url=".data ++ encodeURIComponent U)) ++ b))
    ∧ ∀ (a : List Char) (q2 : Char) (b : List Char),
        rewriteUrlsInContent content targetUrl proxyUrl = a ++ q2 :: (U ++ b) →
        isQS q2 = false := by
  have hpre1 : ¬ Pre U proxyUrl := by
    rw [pre_iff_startsWith]
    simp [hnp1]
  have hpre2 : ¬ Pre proxyUrl U := by
    rw [pre_iff_startsWith]
    simp [hnp2]
  constructor
  · obtain ⟨a1, b1, h1⟩ :=
      rwAbs_emit proxyUrl U hU hUok x.length x (le_refl _) q (U ++ y) hq ⟨y, rfl⟩
    have hSok : (proxyUrl ++ ("?url=".data ++ encodeURIComponent U)).all okc = true :=
      body_all_okc hpOk hUok
    have hShd : ∃ h0 t0,
        proxyUrl ++ ("?url=".data ++ encodeURIComponent U) = h0 :: t0 ∧ h0 ≠ '/' := by
      obtain ⟨pb, hpb, _⟩ := startsWithL_split hph
      refine ⟨'h', 't' :: 't' :: 'p' :: (pb ++ ("?url=".data ++ encodeURIComponent U)),
        ?_, by decide⟩
      rw [hpb]
      rfl
    obtain ⟨a2, b2, h2⟩ :=
      rwPR_preserve proxyUrl (protocolOf targetUrl)
        (proxyUrl ++ ("?url=".data ++ encodeURIComponent U)) hSok hShd
        a1.length a1 (le_refl _) q b1 hq
    obtain ⟨a3, b3, h3⟩ :=
      rwRoot_preserve proxyUrl (originOf targetUrl)
        (proxyUrl ++ ("?url=".data ++ encodeURIComponent U)) hSok hShd
        a2.length a2 (le_refl _) q b2 hq
    refine ⟨a3, b3, ?_⟩
    show rwRoot proxyUrl (originOf targetUrl)
        (rwPR proxyUrl (protocolOf targetUrl) (rwAbs proxyUrl content)) = _
    rw [hsplit, h1]
    rw [show a1 ++ (q :: (proxyUrl ++ ("?url=".data ++ encodeURIComponent U))) ++ b1 =
        a1 ++ q :: ((proxyUrl ++ ("?url=".data ++ encodeURIComponent U)) ++ b1) from by simp]
    rw [h2, h3]
  · intro a q2 b hh
    have hn1 : noQSU U (rwAbs proxyUrl content) :=
      rwAbs_noQSU proxyUrl U hU hUok hpOk hpre1 hpre2 content.length content (le_refl _)
    have hn2 : noQSU U (rwPR proxyUrl (protocolOf targetUrl) (rwAbs proxyUrl content)) :=
      rwPR_noQSU proxyUrl (protocolOf targetUrl) U hUok hpOk hpre1 hpre2 hprotoOk
        (rwAbs proxyUrl content).length (rwAbs proxyUrl content) (le_refl _) hn1
    have hn3 : noQSU U (rwRoot proxyUrl (originOf targetUrl)
        (rwPR proxyUrl (protocolOf targetUrl) (rwAbs proxyUrl content))) :=
      rwRoot_noQSU proxyUrl (originOf targetUrl) U hUok hpOk hpre1 hpre2 horiginOk
        (rwPR proxyUrl (protocolOf targetUrl) (rwAbs proxyUrl content)).length
        (rwPR proxyUrl (protocolOf targetUrl) (rwAbs proxyUrl content)) (le_refl _) hn2
    exact hn3 a q2 b hh

/-- Witness for the amended C2 at a concrete quoted URL. -/
theorem c2_amended_w :
    (∃ a b,
        rewriteUrlsInContent (dquote :: "http://a.b".data) ("http://t/".data)
            ("http://p/".data) =
          a ++ dquote ::
            ((("http://p/".data) ++ ("?url=".data ++ encodeURIComponent ("http://a.b".data)))
              ++ b))
    ∧ ∀ (a : List Char) (q2 : Char) (b : List Char),
        rewriteUrlsInContent (dquote :: "http://a.b".data) ("http://t/".data)
            ("http://p/".data) = a ++ q2 :: ("http://a.b".data ++ b) →
        isQS q2 = false :=
  c2_amended (dquote :: "http://a.b".data) ("http://t/".data) ("http://p/".data)
    ("http://a.b".data) [] [] dquote (by decide) (by decide)
    ⟨"http://".data, "a.b".data, Or.inl rfl, by decide, by decide⟩
    (by decide) (by decide) (by decide) (by decide) (by decide) (by decide) (by decide)

/-! ## CSS scanner lemmas -/

theorem tryCssBody_rest_le {pre l1 a m r : List Char} (h : tryCssBody pre l1 = some (a, m, r)) :
    r.length ≤ l1.length := by
  unfold tryCssBody at h
  by_cases hz : (l1.takeWhile notCssStop).length = 0
  · rw [if_pos hz] at h
    exact Option.noConfusion h
  · rw [if_neg hz] at h
    have hdw := dropWhile_len_le notCssStop l1
    cases hD : l1.dropWhile notCssStop with
    | nil => rw [hD] at h; exact Option.noConfusion h
    | cons s0 rest2 =>
      rw [hD] at h hdw
      dsimp only at h
      simp only [List.length_cons] at hdw
      by_cases h0 : s0 = ')'
      · rw [if_pos h0] at h
        simp only [Option.some.injEq, Prod.mk.injEq] at h
        obtain ⟨-, -, hr⟩ := h
        subst hr
        omega
      · rw [if_neg h0] at h
        by_cases h1 : isCssQuote s0 = true
        · rw [if_pos h1] at h
          cases rest2 with
          | nil => dsimp only at h; exact Option.noConfusion h
          | cons s1 rest3 =>
            dsimp only at h
            by_cases h2 : s1 = ')'
            · rw [if_pos h2] at h
              simp only [Option.some.injEq, Prod.mk.injEq] at h
              simp only [List.length_cons] at hdw
              obtain ⟨-, -, hr⟩ := h
              subst hr
              omega
            · rw [if_neg h2] at h
              exact Option.noConfusion h
        · rw [if_neg h1] at h
          exact Option.noConfusion h

theorem tryCss_rest_le {l a m r : List Char} (h : tryCss l = some (a, m, r)) :
    r.length ≤ l.length := by
  cases l with
  | nil => exact Option.noConfusion h
  | cons c t =>
    simp only [tryCss] at h
    by_cases hc : isCssQuote c = true
    · rw [if_pos hc] at h
      have := tryCssBody_rest_le h
      simp only [List.length_cons]
      omega
    · rw [if_neg hc] at h
      exact tryCssBody_rest_le h

theorem rwCssF_congr (tu pb : List Char) (f : Nat) :
    ∀ l : List Char, l.length ≤ f → rwCssF tu pb f l = rwCss tu pb l := by
  induction f using Nat.strong_induction_on with
  | _ f IH =>
    intro l hl
    cases f with
    | zero =>
      cases l with
      | nil => rfl
      | cons c rest => simp at hl
    | succ g =>
      cases l with
      | nil => rfl
      | cons c rest =>
        have hrest : rest.length ≤ g := by simp at hl; omega
        show rwCssF tu pb (g + 1) (c :: rest) = rwCssF tu pb (rest.length + 1) (c :: rest)
        by_cases hsc : ciIsPre ("url(".data) (c :: rest)
        · cases hm : tryCss ((c :: rest).drop 4) with
          | none =>
            simp only [rwCssF, hsc, hm, if_true]
            rw [IH g (Nat.lt_succ_self g) rest hrest]
            rfl
          | some amr =>
            obtain ⟨a, m, r⟩ := amr
            have hr : r.length ≤ rest.length := by
              have h1 := tryCss_rest_le hm
              have h2 : ((c :: rest).drop 4).length ≤ rest.length := by
                simp [List.length_drop]
              omega
            simp only [rwCssF, hsc, hm, if_true]
            rw [IH g (Nat.lt_succ_self g) r (le_trans hr hrest),
              IH rest.length (by omega) r hr]
        · simp only [rwCssF, hsc, Bool.false_eq_true, if_false]
          rw [IH g (Nat.lt_succ_self g) rest hrest]
          rfl

theorem rwCss_cons (tu pb : List Char) (c : Char) (rest : List Char) :
    rwCss tu pb (c :: rest) =
      if ciIsPre ("url(".data) (c :: rest) then
        match tryCss ((c :: rest).drop 4) with
        | some (a, m, r) =>
          if startsWithL a ("data:".data) then ((c :: rest).take 4 ++ m) ++ rwCss tu pb r
          else
            (("url(".data ++ [dquote]) ++ pb ++ ("?url=".data) ++
                encodeURIComponent (cssResolve a tu) ++ (dquote :: ')' :: [])) ++
              rwCss tu pb r
        | none => c :: rwCss tu pb rest
      else c :: rwCss tu pb rest := by
  show rwCssF tu pb (rest.length + 1) (c :: rest) = _
  by_cases hsc : ciIsPre ("url(".data) (c :: rest)
  · cases hm : tryCss ((c :: rest).drop 4) with
    | none => simp only [rwCssF, hsc, hm, if_true]; rfl
    | some amr =>
      obtain ⟨a, m, r⟩ := amr
      have hr : r.length ≤ rest.length := by
        have h1 := tryCss_rest_le hm
        have h2 : ((c :: rest).drop 4).length ≤ rest.length := by
          simp [List.length_drop]
        omega
      simp only [rwCssF, hsc, hm, if_true]
      rw [rwCssF_congr tu pb rest.length r hr]
  · simp only [rwCssF, hsc, Bool.false_eq_true, if_false]
    rfl

theorem takeWhile_mem_stop (pr : Char → Bool) {L : List Char} {s : Char} (Z : List Char)
    (hs : s ∈ L) (hps : pr s = false) :
    (L ++ Z).takeWhile pr = L.takeWhile pr ∧ (L ++ Z).dropWhile pr = L.dropWhile pr ++ Z
    ∧ L.dropWhile pr ≠ [] := by
  induction L with
  | nil => simp at hs
  | cons c L' ih =>
    by_cases hc : pr c = true
    · have hsne : s ∈ L' := by
        rcases List.mem_cons.mp hs with rfl | hmem
        · rw [hps] at hc; exact Bool.noConfusion hc
        · exact hmem
      obtain ⟨h1, h2, h3⟩ := ih hsne
      refine ⟨?_, ?_, ?_⟩
      · simp [List.takeWhile_cons, hc, h1]
      · simp [List.dropWhile_cons, hc, h2]
      · simpa [List.dropWhile_cons, hc] using h3
    · refine ⟨?_, ?_, ?_⟩ <;> simp [List.takeWhile_cons, List.dropWhile_cons, hc]

theorem dropWhile_head_stop (pr : Char → Bool) {L : List Char} {s0 : Char} {L2 : List Char}
    (h : L.dropWhile pr = s0 :: L2) : pr s0 = false := by
  induction L with
  | nil => exact List.noConfusion h
  | cons c L' ih =>
    by_cases hc : pr c = true
    · rw [List.dropWhile_cons, if_pos hc] at h
      exact ih h
    · rw [List.dropWhile_cons, if_neg hc] at h
      injection h with h1 _
      rw [← h1]
      exact Bool.not_eq_true _ ▸ (by simpa using hc)

theorem tryCssBody_confined (pre : List Char) {L : List Char} (Z2 : List Char)
    (hz : ')' ∈ L) :
    tryCssBody pre (L ++ 'u' :: Z2) = none ∨
    ∃ a m A2, tryCssBody pre (L ++ 'u' :: Z2) = some (a, m, A2 ++ 'u' :: Z2)
      ∧ ∃ w, L = w ++ A2 ∧ w ≠ [] := by
  have hstop : notCssStop ')' = false := by decide
  obtain ⟨htw, hdw, hne⟩ := takeWhile_mem_stop notCssStop ('u' :: Z2) hz hstop
  unfold tryCssBody
  rw [htw, hdw]
  by_cases hz0 : (L.takeWhile notCssStop).length = 0
  · left
    rw [if_pos hz0]
  · rw [if_neg hz0]
    cases hD : L.dropWhile notCssStop with
    | nil => exact absurd hD hne
    | cons s0 L2 =>
      rw [List.cons_append]
      dsimp only
      by_cases h0 : s0 = ')'
      · rw [if_pos h0]
        right
        refine ⟨L.takeWhile notCssStop, pre ++ L.takeWhile notCssStop ++ [')'], L2, rfl,
          L.takeWhile notCssStop ++ [s0], ?_, by simp⟩
        conv_lhs => rw [← List.takeWhile_append_dropWhile notCssStop L]
        rw [hD]
        simp
      · rw [if_neg h0]
        by_cases h1 : isCssQuote s0 = true
        · rw [if_pos h1]
          cases L2 with
          | nil =>
            left
            rw [List.nil_append]
            dsimp only
            rw [if_neg (by decide)]
          | cons l0 L3 =>
            rw [List.cons_append]
            dsimp only
            by_cases h2 : l0 = ')'
            · rw [if_pos h2]
              right
              refine ⟨L.takeWhile notCssStop,
                pre ++ L.takeWhile notCssStop ++ (s0 :: ')' :: []), L3, rfl,
                L.takeWhile notCssStop ++ (s0 :: l0 :: []), ?_, by simp⟩
              conv_lhs => rw [← List.takeWhile_append_dropWhile notCssStop L]
              rw [hD]
              simp
            · left
              rw [if_neg h2]
        · left
          rw [if_neg h1]

theorem tryCss_confined {A4 : List Char} (Z2 : List Char) (hz : ')' ∈ A4) :
    tryCss (A4 ++ 'u' :: Z2) = none ∨
    ∃ a m A2, tryCss (A4 ++ 'u' :: Z2) = some (a, m, A2 ++ 'u' :: Z2)
      ∧ ∃ w, A4 = w ++ A2 ∧ w ≠ [] := by
  cases A4 with
  | nil => simp at hz
  | cons a0 A5 =>
    rw [List.cons_append]
    simp only [tryCss]
    by_cases hq0 : isCssQuote a0 = true
    · rw [if_pos hq0]
      have hz5 : ')' ∈ A5 := by
        rcases List.mem_cons.mp hz with h | h
        · exfalso
          rw [← h] at hq0
          exact absurd hq0 (by decide)
        · exact h
      rcases tryCssBody_confined [a0] Z2 hz5 with hnone | ⟨a, m, A2, hsome, w, hw1, hw2⟩
      · exact Or.inl hnone
      · exact Or.inr ⟨a, m, A2, hsome, a0 :: w, by rw [hw1]; rfl, by simp⟩
    · rw [if_neg hq0, ← List.cons_append]
      exact tryCssBody_confined [] Z2 hz

theorem ciIsPre_of_startsWithL {pfx l : List Char} (h : startsWithL l pfx = true) :
    ciIsPre pfx l = true := by
  induction pfx generalizing l with
  | nil => rfl
  | cons p ps ih =>
    cases l with
    | nil => simp [startsWithL] at h
    | cons c cs =>
      simp only [startsWithL, Bool.and_eq_true, beq_iff_eq] at h
      obtain ⟨rfl, h2⟩ := h
      simp [ciIsPre, ciEq, ih h2]

theorem ciIsPre_app_of_len {p z : List Char} (w : List Char) (h : p.length ≤ z.length) :
    ciIsPre p (z ++ w) = ciIsPre p z := by
  induction p generalizing z with
  | nil => rfl
  | cons p0 ps ih =>
    cases z with
    | nil => simp at h
    | cons c cs =>
      have hps : ps.length ≤ cs.length := by simpa using h
      simp only [List.cons_append, ciIsPre, List.append_eq, ih hps]

theorem ciIsPre_url_span1 (c : Char) (w : List Char) :
    ciIsPre ("url(".data) (c :: 'u' :: w) = false := by
  have h4 : ("url(".data : List Char) = 'u' :: 'r' :: 'l' :: '(' :: [] := by decide
  rw [h4]
  simp [ciIsPre, show ciEq 'r' 'u' = false from by decide]

theorem ciIsPre_url_span2 (c d : Char) (w : List Char) :
    ciIsPre ("url(".data) (c :: d :: 'u' :: w) = false := by
  have h4 : ("url(".data : List Char) = 'u' :: 'r' :: 'l' :: '(' :: [] := by decide
  rw [h4]
  simp [ciIsPre, show ciEq 'l' 'u' = false from by decide]

theorem ciIsPre_url_span3 (c d e : Char) (w : List Char) :
    ciIsPre ("url(".data) (c :: d :: e :: 'u' :: w) = false := by
  have h4 : ("url(".data : List Char) = 'u' :: 'r' :: 'l' :: '(' :: [] := by decide
  rw [h4]
  simp [ciIsPre, show ciEq '(' 'u' = false from by decide]

theorem tryCss_data {arg b : List Char} (hhd : startsWithL arg ("data:".data) = true)
    (hok : arg.all notCssStop = true) :
    tryCss (arg ++ ')' :: b) = some (arg, arg ++ [')'], b) := by
  obtain ⟨t, ht, -⟩ := startsWithL_split hhd
  have harg : ∃ at2, arg = 'd' :: at2 := by
    refine ⟨'a' :: 't' :: 'a' :: ':' :: t, ?_⟩
    rw [ht]
    rfl
  obtain ⟨at2, ha⟩ := harg
  have hstop : notCssStop ')' = false := by decide
  have htw : (arg ++ ')' :: b).takeWhile notCssStop = arg := by
    rw [takeWhile_all_app notCssStop arg (')' :: b) hok]
    simp [List.takeWhile_cons, hstop]
  have hdw : (arg ++ ')' :: b).dropWhile notCssStop = ')' :: b := by
    rw [dropWhile_all_app notCssStop arg (')' :: b) hok]
    simp [List.dropWhile_cons, hstop]
  rw [ha, List.cons_append]
  simp only [tryCss]
  rw [if_neg (by decide)]
  rw [← List.cons_append, ← ha]
  unfold tryCssBody
  rw [htw, hdw]
  rw [if_neg (by rw [ha]; simp)]
  dsimp only
  rw [if_pos rfl]
  simp

theorem closedOpens_suffix {w z : List Char} (h : closedOpens (w ++ z) = true) :
    closedOpens z = true := by
  induction w with
  | nil => simpa using h
  | cons c w' ih =>
    rw [List.cons_append] at h
    simp only [closedOpens, Bool.and_eq_true] at h
    exact ih h.2

theorem ne_paren_of_ciEq {a c : Char} (h : ciEq a c = true) (ha : a.toLower ≠ ')') :
    (c == ')') = false := by
  rw [beq_eq_false_iff_ne]
  intro hc
  subst hc
  rw [ciEq, beq_iff_eq] at h
  have hp : (')' : Char).toLower = ')' := by decide
  rw [hp] at h
  exact ha h

theorem rwCss_tok_nil (tu pb arg b2 : List Char)
    (hdata : startsWithL arg ("data:".data) = true)
    (hok : arg.all notCssStop = true) :
    ∃ x y, rwCss tu pb ('u' :: 'r' :: 'l' :: '(' :: (arg ++ ')' :: b2)) =
      x ++ 'u' :: 'r' :: 'l' :: '(' :: (arg ++ ')' :: y) := by
  have hurl : ("url(".data : List Char) = ['u', 'r', 'l', '('] := by decide
  rw [rwCss_cons]
  have hci : ciIsPre ("url(".data) ('u' :: 'r' :: 'l' :: '(' :: (arg ++ ')' :: b2)) = true := by
    rw [show ('u' :: 'r' :: 'l' :: '(' :: (arg ++ ')' :: b2) : List Char) =
        "url(".data ++ (arg ++ ')' :: b2) from by rw [hurl]; rfl]
    exact ciIsPre_self_app _ _
  rw [hci]
  simp only [if_true]
  have hdrop : (('u' : Char) :: 'r' :: 'l' :: '(' :: (arg ++ ')' :: b2)).drop 4 =
      arg ++ ')' :: b2 := rfl
  rw [hdrop, tryCss_data hdata hok]
  dsimp only
  rw [hdata]
  simp only [if_true]
  refine ⟨[], rwCss tu pb b2, ?_⟩
  have htake : (('u' : Char) :: 'r' :: 'l' :: '(' :: (arg ++ ')' :: b2)).take 4 =
      ['u', 'r', 'l', '('] := rfl
  rw [htake]
  simp [List.append_assoc]

theorem rwCss_tok (tu pb arg b2 : List Char)
    (hdata : startsWithL arg ("data:".data) = true)
    (hok : arg.all notCssStop = true) :
    ∀ n : Nat, ∀ aa : List Char, aa.length ≤ n → closedOpens aa = true →
    ∃ x y, rwCss tu pb (aa ++ 'u' :: 'r' :: 'l' :: '(' :: (arg ++ ')' :: b2)) =
      x ++ 'u' :: 'r' :: 'l' :: '(' :: (arg ++ ')' :: y) := by
  have hurl : ("url(".data : List Char) = ['u', 'r', 'l', '('] := by decide
  intro n
  induction n with
  | zero =>
    intro aa hlen _
    have hae : aa = [] := by
      cases aa with
      | nil => rfl
      | cons c aa' => simp at hlen
    subst hae
    simpa using rwCss_tok_nil tu pb arg b2 hdata hok
  | succ n IH =>
    intro aa hlen hclosed
    cases aa with
    | nil => simpa using rwCss_tok_nil tu pb arg b2 hdata hok
    | cons c aa' =>
      have hlen' : aa'.length ≤ n := by simp at hlen; omega
      simp only [closedOpens, Bool.and_eq_true] at hclosed
      have hclosed' : closedOpens aa' = true := hclosed.2
      rw [List.cons_append, rwCss_cons]
      by_cases hsc : ciIsPre ("url(".data)
          (c :: (aa' ++ 'u' :: 'r' :: 'l' :: '(' :: (arg ++ ')' :: b2))) = true
      · rcases aa' with _ | ⟨d1, _ | ⟨d2, _ | ⟨d3, A4⟩⟩⟩
        · exfalso
          rw [List.nil_append, ciIsPre_url_span1] at hsc
          exact Bool.noConfusion hsc
        · exfalso
          rw [List.cons_append, List.nil_append, ciIsPre_url_span2] at hsc
          exact Bool.noConfusion hsc
        · exfalso
          rw [List.cons_append, List.cons_append, List.nil_append, ciIsPre_url_span3] at hsc
          exact Bool.noConfusion hsc
        · -- the guard characters of the match lie inside the prefix
          have hsc2 := hsc
          rw [show (c :: ((d1 :: d2 :: d3 :: A4) ++
              'u' :: 'r' :: 'l' :: '(' :: (arg ++ ')' :: b2)) : List Char) =
            (c :: d1 :: d2 :: d3 :: A4) ++
              'u' :: 'r' :: 'l' :: '(' :: (arg ++ ')' :: b2) from by simp] at hsc2
          have hlen4 : ("url(".data : List Char).length ≤ (c :: d1 :: d2 :: d3 :: A4).length := by
            rw [hurl]
            simp
          rw [ciIsPre_app_of_len _ hlen4] at hsc2
          -- individual character facts
          have hsc3 := hsc2
          rw [hurl] at hsc3
          simp only [ciIsPre, Bool.and_eq_true] at hsc3
          obtain ⟨hcu, hd1, hd2, hd3, -⟩ := hsc3
          -- the promised closing parenthesis lies in A4
          have hdis := hclosed.1
          rw [hsc2] at hdis
          simp only [Bool.not_true, Bool.false_or] at hdis
          have hc0 : (c == ')') = false := ne_paren_of_ciEq hcu (by decide)
          have hc1 : (d1 == ')') = false := ne_paren_of_ciEq hd1 (by decide)
          have hc2 : (d2 == ')') = false := ne_paren_of_ciEq hd2 (by decide)
          have hc3 : (d3 == ')') = false := ne_paren_of_ciEq hd3 (by decide)
          simp only [List.any_cons, hc0, hc1, hc2, hc3, Bool.false_or] at hdis
          have hparen : ')' ∈ A4 := by
            obtain ⟨ch, hmem, hb⟩ := List.any_eq_true.mp hdis
            rw [beq_iff_eq] at hb
            rw [← hb]
            exact hmem
          have hdropeq : ((c :: ((d1 :: d2 :: d3 :: A4) ++
              'u' :: 'r' :: 'l' :: '(' :: (arg ++ ')' :: b2)) : List Char)).drop 4 =
            A4 ++ 'u' :: ('r' :: 'l' :: '(' :: (arg ++ ')' :: b2)) := rfl
          rcases tryCss_confined ('r' :: 'l' :: '(' :: (arg ++ ')' :: b2)) hparen with
            hnone | ⟨al, m, A2, hsome, w, hw1, hw2⟩
          · rw [hsc]
            simp only [if_true]
            rw [hdropeq, hnone]
            obtain ⟨x, y, hxy⟩ := IH (d1 :: d2 :: d3 :: A4) hlen' hclosed'
            exact ⟨c :: x, y, by rw [hxy]; simp⟩
          · rw [hsc]
            simp only [if_true]
            rw [hdropeq, hsome]
            dsimp only
            have hA2len : A2.length ≤ n := by
              have : A4.length = w.length + A2.length := by rw [hw1]; simp
              simp at hlen
              omega
            have hA2closed : closedOpens A2 = true := by
              have hsuf : (d1 :: d2 :: d3 :: A4) = (d1 :: d2 :: d3 :: w) ++ A2 := by
                rw [hw1]
                simp
              rw [hsuf] at hclosed'
              exact closedOpens_suffix hclosed'
            obtain ⟨x, y, hxy⟩ := IH A2 hA2len hA2closed
            have hxy2 : rwCss tu pb (A2 ++ 'u' :: ('r' :: 'l' :: '(' :: (arg ++ ')' :: b2))) =
                x ++ 'u' :: 'r' :: 'l' :: '(' :: (arg ++ ')' :: y) := hxy
            rw [hxy2]
            by_cases hd : startsWithL al ("data:".data) = true
            · rw [hd]
              simp only [if_true]
              refine ⟨((c :: ((d1 :: d2 :: d3 :: A4) ++
                  'u' :: 'r' :: 'l' :: '(' :: (arg ++ ')' :: b2))).take 4 ++ m) ++ x, y, ?_⟩
              simp [List.append_assoc]
            · rw [if_neg (by simpa using hd)]
              refine ⟨((("url(".data ++ [dquote]) ++ pb ++ ("?url=".data) ++
                  encodeURIComponent (cssResolve al tu) ++ (dquote :: ')' :: []))) ++ x, y, ?_⟩
              simp [List.append_assoc]
      · rw [if_neg (by simpa using hsc)]
        obtain ⟨x, y, hxy⟩ := IH aa' hlen' hclosed'
        exact ⟨c :: x, y, by rw [hxy]; simp⟩

/-- C8 (counterexample to the claim as stated): the CSS payload
`url(url(data:a,b))` contains the token `url(data:a,b)` whose argument begins
with `data:`, yet the CSS rewriter's output no longer contains that token
byte-for-byte: the greedy outer `url(` match swallows the nested `data:` token
and rewrites it through the proxy. -/
theorem c8_counterexample :
    containsL ("url(url(data:a,b))".data) ("url(data:a,b)".data) = true ∧
    containsL (rewriteCssUrls ("url(url(data:a,b))".data) ("http://h/p".data)
      ("http://p/asset".data)) ("url(data:a,b)".data) = false := by
  constructor
  · decide
  · decide

/-- C8 (amended): for every CSS payload that splits as
`prefix ++ "url(" ++ arg ++ ")" ++ rest` where the argument `arg` begins with
`data:` and contains no CSS stop character (quote or parenthesis), and where
every case-insensitive `url(` occurrence inside `prefix` is closed by a `)`
within `prefix` (i.e. the `data:` token is not nested inside an earlier
unclosed `url(` argument), the CSS rewriter reproduces the whole token
`url(` ++ arg ++ `)` byte-for-byte in its output. -/
theorem c8_amended (css tu pb aa arg b2 : List Char)
    (hsplit : css = aa ++ ("url(".data ++ arg ++ [')']) ++ b2)
    (hdata : startsWithL arg ("data:".data) = true)
    (hok : arg.all notCssStop = true)
    (hclosed : closedOpens aa = true) :
    ∃ x y, rewriteCssUrls css tu pb = x ++ ("url(".data ++ arg ++ [')']) ++ y := by
  have hurl : ("url(".data : List Char) = ['u', 'r', 'l', '('] := by decide
  have hform : css = aa ++ 'u' :: 'r' :: 'l' :: '(' :: (arg ++ ')' :: b2) := by
    rw [hsplit, hurl]
    simp
  obtain ⟨x, y, hxy⟩ := rwCss_tok tu pb arg b2 hdata hok aa.length aa le_rfl hclosed
  refine ⟨x, y, ?_⟩
  show rwCss tu pb css = x ++ ("url(".data ++ arg ++ [')']) ++ y
  rw [hform, hxy, hurl]
  simp

theorem c8_amended_w :
    ∃ x y, rewriteCssUrls ("body background: url(data:image/png;base64,AAA);".data)
      ("http://h/p".data) ("http://p/asset".data) =
      x ++ ("url(".data ++ ("data:image/png;base64,AAA".data) ++ [')']) ++ y :=
  c8_amended ("body background: url(data:image/png;base64,AAA);".data)
    ("http://h/p".data) ("http://p/asset".data)
    ("body background: ".data) ("data:image/png;base64,AAA".data) (";".data)
    (by decide) (by decide) (by decide) (by decide)
